import Mathlib

/-!
Verification of the chunk-buffer and upload-orchestrator core of
react-video-recorder-buffer.

The embedding models the two core source modules:

* `VideoBuffer` (chunk accumulation, IndexedDB spill, merge/sort retrieval);
* `VideoUploadService` (strategy selection, progress events, cancellation).

JavaScript `number` arithmetic is modelled as exact rational arithmetic
(`ℚ`); byte counts and millisecond timestamps are `Nat`; blobs are byte
lists whose `size` is their length.  Ambient effects (`Date.now()`,
`supabase` results, `AbortSignal` observations) are passed in explicitly as
parameters or environment fields.  Fallible code is modelled on its success
path unless a claim is about the failure path, in which case the outcome is
an explicit environment input.
-/

/- ------------------------------------------------------------------ -/
/- Decimal rendering of naturals, as JS template interpolation renders
   an integer timestamp inside the IndexedDB key string.               -/
/- ------------------------------------------------------------------ -/

/-- Little-endian decimal digits of `n`, with an explicit fuel bound making
the recursion structural; `fuel ≥ n + 1` always suffices. -/
def digitsRev : Nat → Nat → List Nat
  | 0, _ => []
  | fuel + 1, n => if n = 0 then [] else n % 10 :: digitsRev fuel (n / 10)

/-- Value of a little-endian decimal digit list. -/
def ofDigitsLE : List Nat → Nat
  | [] => 0
  | d :: rest => d + 10 * ofDigitsLE rest

/-- Decimal rendering of a natural number, as JavaScript renders an integer
timestamp in a template string such as `${recordingId}_${timestamp}`. -/
def natRepr (n : Nat) : String :=
  if n = 0 then "0"
  else String.mk (((digitsRev (n + 1) n).map (fun d => Char.ofNat (48 + d))).reverse)

/- ------------------------------------------------------------------ -/
/- VideoBuffer data model (src/unnamed/part_003)                       -/
/- ------------------------------------------------------------------ -/

/-- A blob payload: an opaque byte list; `size` in the source is its length. -/
abbrev BlobData := List Nat

/-- `VideoChunk` from the source: payload, capture timestamp (ms), byte
size, and elapsed duration (seconds) relative to recording start. -/
structure VideoChunk where
  blob : BlobData
  timestamp : Nat
  size : Nat
  duration : ℚ
deriving DecidableEq, Repr

/-- `BufferConfig` from the source. -/
structure BufferConfig where
  maxSize : Nat
  maxDuration : ℚ
  chunkInterval : Nat
  compressionLevel : String
  autoFlush : Bool
deriving DecidableEq, Repr

/-- The defaults installed by the `VideoBuffer` constructor. -/
def defaultBufferConfig : BufferConfig :=
  { maxSize := 100 * 1024 * 1024
  , maxDuration := 1800
  , chunkInterval := 1000
  , compressionLevel := "medium"
  , autoFlush := true }

/-- The record shape written to the IndexedDB `chunks` object store
(keyPath `id`). -/
structure ChunkRecord where
  id : String
  recordingId : String
  blob : BlobData
  timestamp : Nat
  size : Nat
  duration : ℚ
deriving DecidableEq, Repr

/-- One `VideoBuffer` instance together with the IndexedDB `chunks` object
store it talks to. -/
structure BufferState where
  chunks : List VideoChunk
  config : BufferConfig
  startTime : Nat
  recordingId : String
  store : List ChunkRecord
deriving DecidableEq, Repr

/-- The IndexedDB primary key built in `flushToIndexedDB`:
`` `${this.recordingId}_${chunk.timestamp}` ``. -/
def chunkRecordId (recordingId : String) (timestamp : Nat) : String :=
  recordingId ++ "_" ++ natRepr timestamp

/-- The `chunkData` object assembled per chunk inside `flushToIndexedDB`. -/
def VideoChunk.toRecord (recordingId : String) (c : VideoChunk) : ChunkRecord :=
  { id := chunkRecordId recordingId c.timestamp
  , recordingId := recordingId
  , blob := c.blob
  , timestamp := c.timestamp
  , size := c.size
  , duration := c.duration }

/-- IndexedDB `store.put`: upsert by primary key `id` — replaces the record
holding that key if present, otherwise appends. -/
def idbPut (store : List ChunkRecord) (r : ChunkRecord) : List ChunkRecord :=
  if store.any (fun x => decide (x.id = r.id)) then
    store.map (fun x => if x.id = r.id then r else x)
  else store ++ [r]

/-- The records the `recordingId` index returns for one recording
(`index.getAll(this.recordingId)`).  The source receives them in index-key
order; this embedding keeps insertion order, which agrees up to permutation
— `getAllChunks` re-sorts by timestamp afterwards in either case. -/
def storeChunksFor (recordingId : String) (store : List ChunkRecord) : List ChunkRecord :=
  store.filter (fun r => decide (r.recordingId = recordingId))

/-- `initialize()`: clear in-memory chunks and record the start timestamp. -/
def bufInit (now : Nat) (s : BufferState) : BufferState :=
  { s with chunks := [], startTime := now }

/-- The aggregate-size line of `getStats`:
`this.chunks.reduce((sum, chunk) => sum + chunk.size, 0)`. -/
def bufTotalSize (s : BufferState) : Nat :=
  s.chunks.foldl (fun sum c => sum + c.size) 0

/-- The duration line of `getStats`: wall-clock elapsed seconds when the
in-memory chunk list is nonempty, and `0` when it is empty. -/
def bufTotalDuration (now : Nat) (s : BufferState) : ℚ :=
  if s.chunks.length > 0 then ((now : ℚ) - (s.startTime : ℚ)) / 1000 else 0

/-- `estimateMemoryUsage`: blob bytes plus ~100 bytes of metadata per chunk. -/
def estimateMemoryUsage (s : BufferState) : Nat :=
  s.chunks.foldl (fun sum c => sum + c.size) 0 + s.chunks.length * 100

/-- The two comparison lines in the body of `isNearLimit`, applied to the
directly computed totals: size ≥ 80% of `maxSize` or duration ≥ 80% of
`maxDuration`.  This is the check the source evidently intends; the
source's `isNearLimit` as written never reaches a result (see the fuel
model below). -/
def nearLimitCheck (now : Nat) (s : BufferState) : Bool :=
  decide ((bufTotalSize s : ℚ) ≥ (s.config.maxSize : ℚ) * 0.8)
    || decide (bufTotalDuration now s ≥ s.config.maxDuration * 0.8)

/-- `BufferStats` from the source. -/
structure BufferStats where
  totalSize : Nat
  totalDuration : ℚ
  chunkCount : Nat
  memoryUsage : Nat
  isNearLimit : Bool
deriving DecidableEq, Repr

mutual

/-- The source's `getStats` as written: it builds its record with
`isNearLimit: this.isNearLimit()`, and `isNearLimit` in turn starts with
`const stats = this.getStats()`.  The two methods call each other
unconditionally, so the call stack is modelled by explicit fuel; `none`
means the stack is exhausted before a result is produced. -/
def getStatsFuel : Nat → Nat → BufferState → Option BufferStats
  | 0, _, _ => none
  | fuel + 1, now, s =>
    match isNearLimitFuel fuel now s with
    | none => none
    | some nl =>
      some { totalSize := bufTotalSize s
           , totalDuration := bufTotalDuration now s
           , chunkCount := s.chunks.length
           , memoryUsage := estimateMemoryUsage s
           , isNearLimit := nl }

/-- The source's `isNearLimit` as written: it first calls `getStats()`
(which itself calls `isNearLimit()`), then compares the stats against the
80% thresholds. -/
def isNearLimitFuel : Nat → Nat → BufferState → Option Bool
  | 0, _, _ => none
  | fuel + 1, now, s =>
    match getStatsFuel fuel now s with
    | none => none
    | some stats =>
      some (decide ((stats.totalSize : ℚ) ≥ (s.config.maxSize : ℚ) * 0.8)
        || decide (stats.totalDuration ≥ s.config.maxDuration * 0.8))

end

/-- `flushToIndexedDB`: no-op on an empty chunk list; otherwise `put` one
record per in-memory chunk (keyed `` `${recordingId}_${timestamp}` ``) and
then clear the in-memory list.  Modelled on its success path. -/
def flushToIndexedDB (s : BufferState) : BufferState :=
  if s.chunks = [] then s
  else
    { s with
      store := s.chunks.foldl (fun st c => idbPut st (c.toRecord s.recordingId)) s.store
      chunks := [] }

/-- `addChunk(blob)`: append a chunk stamped with the current time, then
auto-flush when `this.config.autoFlush && this.isNearLimit()`.  The
source's `isNearLimit` never returns (mutual recursion with `getStats`;
see `isNearLimitFuel`), so the auto-flush condition is modelled with the
repaired check `nearLimitCheck`, which is what the condition denotes once
that slip is fixed. -/
def addChunk (now : Nat) (blob : BlobData) (s : BufferState) : BufferState :=
  let chunk : VideoChunk :=
    { blob := blob
    , timestamp := now
    , size := blob.length
    , duration := ((now : ℚ) - (s.startTime : ℚ)) / 1000 }
  let s1 := { s with chunks := s.chunks ++ [chunk] }
  if s1.config.autoFlush && nearLimitCheck now s1 then flushToIndexedDB s1 else s1

/-- `getAllChunks()`: map the persisted records for this recording back to
chunks, append the in-memory chunks, and sort by timestamp ascending
(stable sort, as `Array.prototype.sort` is).  Modelled on the successful
IndexedDB read path. -/
def getAllChunks (s : BufferState) : List VideoChunk :=
  let memoryChunks := s.chunks
  let dbChunks := (storeChunksFor s.recordingId s.store).map
    (fun data =>
      ({ blob := data.blob
       , timestamp := data.timestamp
       , size := data.size
       , duration := data.duration } : VideoChunk))
  List.mergeSort (dbChunks ++ memoryChunks) (fun a b => decide (a.timestamp ≤ b.timestamp))

/-- One step of a buffer session: an `addChunk` call (with the `Date.now()`
value it observes) or a `flushToIndexedDB` call. -/
inductive BufOp where
  | add (now : Nat) (blob : BlobData)
  | flush
deriving DecidableEq, Repr

/-- Run a sequence of buffer operations. -/
def runOps (s : BufferState) : List BufOp → BufferState
  | [] => s
  | BufOp.add now blob :: rest => runOps (addChunk now blob s) rest
  | BufOp.flush :: rest => runOps (flushToIndexedDB s) rest

/-- The timestamps of the `addChunk` calls in an operation sequence. -/
def addTimes : List BufOp → List Nat
  | [] => []
  | BufOp.add now _ :: rest => now :: addTimes rest
  | BufOp.flush :: rest => addTimes rest

/-- Number of `addChunk` calls in an operation sequence. -/
def numAddCalls (ops : List BufOp) : Nat := (addTimes ops).length

/-- In-memory chunk count plus persisted record count for this recording. -/
def totalChunkCount (s : BufferState) : Nat :=
  s.chunks.length + (storeChunksFor s.recordingId s.store).length

/-- Well-formedness of the shared object store: primary keys are unique
(IndexedDB guarantees this), and every record of this recording carries
the key `flushToIndexedDB` builds for it. -/
def storeWfFor (recordingId : String) (store : List ChunkRecord) : Prop :=
  (store.map ChunkRecord.id).Nodup ∧
    ∀ r ∈ storeChunksFor recordingId store, r.id = chunkRecordId recordingId r.timestamp

/-- The timestamps currently held for this recording: persisted first,
then in-memory — the combination `getAllChunks` merges. -/
def traceTs (s : BufferState) : List Nat :=
  (storeChunksFor s.recordingId s.store).map ChunkRecord.timestamp
    ++ s.chunks.map VideoChunk.timestamp

/- ------------------------------------------------------------------ -/
/- VideoUploadService data model (src/src/services/VideoUploadService.ts) -/
/- ------------------------------------------------------------------ -/

/-- `UploadConfig` from the source. -/
structure UploadConfig where
  chunkSize : Nat
  maxRetries : Nat
  timeout : Nat
  compressionQuality : ℚ
  enableCompression : Bool
deriving DecidableEq, Repr

/-- The defaults installed by the `VideoUploadService` constructor. -/
def defaultUploadConfig : UploadConfig :=
  { chunkSize := 5 * 1024 * 1024
  , maxRetries := 3
  , timeout := 30000
  , compressionQuality := 0.8
  , enableCompression := false }

/-- The `status` union of `UploadProgress`. -/
inductive UploadStatus where
  | pending
  | uploading
  | processing
  | completed
  | error
  | cancelled
deriving DecidableEq, Repr

/-- `UploadProgress` from the source: the event object handed to the
progress callback. -/
structure UploadProgress where
  uploadId : String
  bytesUploaded : Nat
  totalBytes : Nat
  percentage : ℚ
  speed : ℚ
  estimatedTimeRemaining : ℚ
  status : UploadStatus
  error : Option String
deriving DecidableEq, Repr

/-- A `Partial<UploadProgress>`: the `updates` object a call site passes to
`updateProgress`; `none` marks a field the call site omits. -/
structure ProgressUpdate where
  uploadId : Option String := none
  bytesUploaded : Option Nat := none
  totalBytes : Option Nat := none
  percentage : Option ℚ := none
  speed : Option ℚ := none
  estimatedTimeRemaining : Option ℚ := none
  status : Option UploadStatus := none
  error : Option String := none
deriving DecidableEq, Repr

/-- `VideoMetadata` from the source. -/
structure VideoMetadata where
  filename : String
  size : Nat
  duration : ℚ
  format : String
  quality : String
  resolution : Option (Nat × Nat)
  uploadedAt : String
  userId : String
deriving DecidableEq, Repr

/-- The `Partial<VideoMetadata>` hints the caller passes to `uploadVideo`. -/
structure MetadataHints where
  duration : Option ℚ := none
  format : Option String := none
  quality : Option String := none
  resolution : Option (Nat × Nat) := none
deriving DecidableEq, Repr

/-- `UploadResult` from the source. -/
structure UploadResult where
  success : Bool
  uploadId : String
  filePath : Option String := none
  publicUrl : Option String := none
  metadata : Option VideoMetadata := none
  error : Option String := none
deriving DecidableEq, Repr

/-- The orchestrator's per-instance mutable maps, by upload id:
`activeUploads` (ids with a live `AbortController`) and
`progressCallbacks` (ids with a registered callback).  `abortedIds`
records which controllers have had `abort()` invoked. -/
structure ServiceState where
  activeUploads : List String
  progressCallbacks : List String
  abortedIds : List String
deriving DecidableEq, Repr

/-- A fresh `VideoUploadService` instance: both maps empty. -/
def emptyServiceState : ServiceState :=
  { activeUploads := [], progressCallbacks := [], abortedIds := [] }

/-- `Map.set` key behaviour: the key set gains the id if absent. -/
def mapSet (l : List String) (id : String) : List String :=
  if id ∈ l then l else id :: l

/-- `Map.delete` key behaviour: the id is removed from the key set. -/
def mapDelete (l : List String) (id : String) : List String :=
  l.filter (fun x => decide (x ≠ id))

/-- The external world one `uploadVideo` call observes: the auth result,
the remote-store outcome, the abort-signal observations of the simulated
chunk loop, clock samples, and the generated identifiers. -/
structure UploadEnv where
  /-- `supabase.auth.getUser()`: the authenticated principal id, or `none`
  when no user is resolvable. -/
  user : Option String
  /-- `new Date().toISOString()` at path-building time. -/
  isoTimestamp : String
  /-- Outcome of `supabase.storage.upload` for the whole blob: `none` on
  success, or the thrown error's message. -/
  storageError : Option String
  /-- `signal.aborted` as observed at the top of simulated chunk step `i`. -/
  abortedAt : Nat → Bool
  /-- Milliseconds elapsed since the strategy's `startTime` when simulated
  chunk step `i` finishes (`Date.now() - startTime`). -/
  chunkElapsedMs : Nat → Nat
  /-- Milliseconds elapsed across the direct upload call. -/
  directElapsedMs : Nat
  /-- `supabase.storage.getPublicUrl(path).data.publicUrl`. -/
  publicUrl : String → String
  /-- The id `generateUploadId()` returns for this call. -/
  freshId : String

/-- The character class `[a-zA-Z0-9.-]` of `sanitizeFilename`. -/
def allowedChar (c : Char) : Bool :=
  c.isAlpha || c.isDigit || c = '.' || c = '-'

/-- `sanitizeFilename` step 1: `replace(/[^a-zA-Z0-9.-]/g, '_')`. -/
def replaceDisallowed (l : List Char) : List Char :=
  l.map (fun c => if allowedChar c then c else '_')

/-- `sanitizeFilename` step 2: `replace(/__+/g, '_')` — every run of two or
more underscores collapses to a single underscore (the run's last one is
kept by this recursion, which is extensionally the same). -/
def collapseUnderscores : List Char → List Char
  | [] => []
  | [c] => [c]
  | c :: d :: rest =>
    if c = '_' && d = '_' then collapseUnderscores (d :: rest)
    else c :: collapseUnderscores (d :: rest)

/-- `sanitizeFilename` step 3: `replace(/^_|_$/g, '')` — `^` and `$` match
only the string's ends, so this removes one leading underscore and one
trailing underscore. -/
def trimEdgeUnderscores (l : List Char) : List Char :=
  let l1 := if l.head? = some '_' then l.tail else l
  if l1.getLast? = some '_' then l1.dropLast else l1

/-- `sanitizeFilename` from the source: the three `replace` passes. -/
def sanitizeFilename (filename : String) : String :=
  String.mk (trimEdgeUnderscores (collapseUnderscores (replaceDisallowed filename.data)))

/-- The timestamp cleanup in `uploadVideo`:
`new Date().toISOString().replace(/[:.]/g, '-')`. -/
def sanitizeIso (s : String) : String :=
  String.mk (s.data.map (fun c => if c = ':' || c = '.' then '-' else c))

/-- `extractFormat`: last `.`-separated component lowercased, or
`"unknown"` when it is empty. -/
def extractFormat (filename : String) : String :=
  let ext := ((filename.splitOn ".").getLast?).getD ""
  if ext = "" then "unknown" else ext.toLower

/-- `updateProgress`'s event construction: fixed defaults spread first,
then the fields of this one update — there is no stored per-upload
progress record, so omitted fields always read their defaults. -/
def mkProgress (uploadId : String) (u : ProgressUpdate) : UploadProgress :=
  { uploadId := u.uploadId.getD uploadId
  , bytesUploaded := u.bytesUploaded.getD 0
  , totalBytes := u.totalBytes.getD 0
  , percentage := u.percentage.getD 0
  , speed := u.speed.getD 0
  , estimatedTimeRemaining := u.estimatedTimeRemaining.getD 0
  , status := u.status.getD UploadStatus.pending
  , error := u.error }

/-- `updateProgress`: look up the callback for this id and, when present,
deliver the freshly built event.  The returned list is the sequence of
events this call delivers. -/
def updateProgress (st : ServiceState) (uploadId : String) (u : ProgressUpdate) :
    List UploadProgress :=
  if uploadId ∈ st.progressCallbacks then [mkProgress uploadId u] else []

/-- `cleanup`: drop the id from both maps. -/
def cleanup (st : ServiceState) (uploadId : String) : ServiceState :=
  { st with
    activeUploads := mapDelete st.activeUploads uploadId
    progressCallbacks := mapDelete st.progressCallbacks uploadId }

/-- `cancelUpload(id)`: when the id has a live controller, abort it, report
a `cancelled` event, and clean up; otherwise do nothing. -/
def cancelUpload (st : ServiceState) (uploadId : String) :
    ServiceState × List UploadProgress :=
  if uploadId ∈ st.activeUploads then
    let st1 := { st with abortedIds := mapSet st.abortedIds uploadId }
    let evs := updateProgress st1 uploadId { status := some UploadStatus.cancelled }
    (cleanup st1 uploadId, evs)
  else (st, [])

/-- `isUploadActive(id)`. -/
def isUploadActive (st : ServiceState) (uploadId : String) : Bool :=
  decide (uploadId ∈ st.activeUploads)

/-- The strategy `uploadVideo` resolves from the blob size. -/
inductive UploadStrategy where
  | direct
  | chunked
deriving DecidableEq, Repr

/-- The size test in `uploadVideo`: chunked when
`blob.size > this.config.chunkSize * 2`, else direct. -/
def chooseStrategy (cfg : UploadConfig) (blobSize : Nat) : UploadStrategy :=
  if blobSize > cfg.chunkSize * 2 then UploadStrategy.chunked else UploadStrategy.direct

/-- `directUpload`: one whole-blob store call; on success a single progress
event at 100% with the wall-clock speed; on a thrown store error, a
failure outcome with its message.  (A zero elapsed time makes the ℚ speed
division yield 0 where JS yields Infinity; no claim concerns `speed`.) -/
def directUpload (st : ServiceState) (uploadId : String) (env : UploadEnv)
    (blobSize : Nat) : List UploadProgress × Bool × Option String :=
  match env.storageError with
  | some msg => ([], false, some msg)
  | none =>
    let duration : ℚ := (env.directElapsedMs : ℚ)
    let speed : ℚ := (blobSize : ℚ) / (duration / 1000)
    ( updateProgress st uploadId
        { bytesUploaded := some blobSize
        , percentage := some 100
        , speed := some speed
        , estimatedTimeRemaining := some 0 }
    , true, none )

/-- The slice sizes the chunked strategy builds:
`blob.slice(i*chunkSize, min((i+1)*chunkSize, totalSize))` for
`i < ceil(totalSize / chunkSize)`. -/
def sliceSizes (chunkSize totalSize : Nat) : List Nat :=
  (List.range ((totalSize + chunkSize - 1) / chunkSize)).map
    (fun i => min (i * chunkSize + chunkSize) totalSize - i * chunkSize)

/-- The simulated per-chunk loop of `chunkedUpload`: before each step the
abort signal is checked (`throw new Error('Upload cancelled')` when set),
then a progress event is delivered with the bytes simulated so far.
Returns the delivered events and either the final byte count or the thrown
message. -/
def chunkedLoop (st : ServiceState) (uploadId : String) (env : UploadEnv)
    (totalSize : Nat) : List Nat → Nat → Nat → List UploadProgress × Option String
  | [], _, _ => ([], none)
  | sz :: rest, uploaded, i =>
    if env.abortedAt i then ([], some "Upload cancelled")
    else
      let uploaded1 := uploaded + sz
      let elapsed : ℚ := (env.chunkElapsedMs i : ℚ) / 1000
      let speed : ℚ := (uploaded1 : ℚ) / elapsed
      let remaining : ℚ := ((totalSize - uploaded1 : Nat) : ℚ)
      let evs := updateProgress st uploadId
        { bytesUploaded := some uploaded1
        , percentage := some ((uploaded1 : ℚ) / (totalSize : ℚ) * 100)
        , speed := some speed
        , estimatedTimeRemaining := some (remaining / speed) }
      let (evsRest, r) := chunkedLoop st uploadId env totalSize rest uploaded1 (i + 1)
      (evs ++ evsRest, r)

/-- `chunkedUpload`: simulate per-chunk progress, then perform the single
whole-blob store call. -/
def chunkedUpload (cfg : UploadConfig) (st : ServiceState) (uploadId : String)
    (env : UploadEnv) (blobSize : Nat) : List UploadProgress × Bool × Option String :=
  let (evs, r) := chunkedLoop st uploadId env blobSize (sliceSizes cfg.chunkSize blobSize) 0 0
  match r with
  | some msg => (evs, false, some msg)
  | none =>
    match env.storageError with
    | some msg => (evs, false, some msg)
    | none => (evs, true, none)

/-- The `catch` block of `uploadVideo`: report an `error` event with the
failure description, release the handles, and return a failure result. -/
def uploadVideoFail (st1 : ServiceState) (uploadId : String) (msg : String)
    (evs : List UploadProgress) : ServiceState × List UploadProgress × UploadResult :=
  ( cleanup st1 uploadId
  , evs ++ updateProgress st1 uploadId
      { status := some UploadStatus.error, error := some msg }
  , { success := false, uploadId := uploadId, error := some msg } )

/-- `uploadVideo`: register the handle and callback, emit the initial
`pending` event, resolve the user, build the sanitized remote path, pick a
strategy by size, run it, then the `processing`/metadata/`completed`
tail; every failure is caught and converted by `uploadVideoFail` — the
function always returns a result, it never throws.  (Metadata insertion is
logged-only on failure in the source and is modelled as pure data in the
result.) -/
def uploadVideo (cfg : UploadConfig) (st : ServiceState) (env : UploadEnv)
    (blobSize : Nat) (filename : String) (hints : MetadataHints)
    (hasCallback : Bool) : ServiceState × List UploadProgress × UploadResult :=
  let uploadId := env.freshId
  let st1 : ServiceState :=
    { st with
      activeUploads := mapSet st.activeUploads uploadId
      progressCallbacks :=
        if hasCallback then mapSet st.progressCallbacks uploadId
        else st.progressCallbacks }
  let evs0 := updateProgress st1 uploadId
    { uploadId := some uploadId
    , bytesUploaded := some 0
    , totalBytes := some blobSize
    , percentage := some 0
    , speed := some 0
    , estimatedTimeRemaining := some 0
    , status := some UploadStatus.pending }
  match env.user with
  | none => uploadVideoFail st1 uploadId "User not authenticated" evs0
  | some userId =>
    let timestamp := sanitizeIso env.isoTimestamp
    let safeFilename := sanitizeFilename filename
    let filePath := "videos/" ++ userId ++ "/" ++ timestamp ++ "_" ++ safeFilename
    let evs1 := updateProgress st1 uploadId { status := some UploadStatus.uploading }
    let stepRes :=
      match chooseStrategy cfg blobSize with
      | UploadStrategy.chunked => chunkedUpload cfg st1 uploadId env blobSize
      | UploadStrategy.direct => directUpload st1 uploadId env blobSize
    match stepRes with
    | (evsU, false, err) =>
      uploadVideoFail st1 uploadId (err.getD "Upload failed") (evs0 ++ evs1 ++ evsU)
    | (evsU, true, _) =>
      let evs2 := updateProgress st1 uploadId { status := some UploadStatus.processing }
      let completeMetadata : VideoMetadata :=
        { filename := safeFilename
        , size := blobSize
        , duration := hints.duration.getD 0
        , format := hints.format.getD (extractFormat filename)
        , quality := hints.quality.getD "medium"
        , resolution := hints.resolution
        , uploadedAt := env.isoTimestamp
        , userId := userId }
      let evs3 := updateProgress st1 uploadId
        { status := some UploadStatus.completed, percentage := some 100 }
      ( cleanup st1 uploadId
      , evs0 ++ evs1 ++ evsU ++ evs2 ++ evs3
      , { success := true
        , uploadId := uploadId
        , filePath := some filePath
        , publicUrl := some (env.publicUrl filePath)
        , metadata := some completeMetadata } )

/-- Concrete empty buffer used in counterexamples. -/
def c7State : BufferState :=
  { chunks := [], config := defaultBufferConfig, startTime := 0
  , recordingId := "rec", store := [] }

/-- Concrete nonempty buffer used in witnesses. -/
def c7StateB : BufferState :=
  { chunks := [{ blob := [0, 0, 0], timestamp := 500, size := 3, duration := 1/2 }]
  , config := defaultBufferConfig, startTime := 0
  , recordingId := "rec", store := [] }

/-- Buffer config with a 100-byte maximum, for threshold boundary checks. -/
def boundaryConfig : BufferConfig := { defaultBufferConfig with maxSize := 100 }

/-- A buffer at the given percentage of the 100-byte maximum. -/
def boundaryState (sz : Nat) : BufferState :=
  { chunks := [{ blob := List.replicate sz 0, timestamp := 0, size := sz, duration := 0 }]
  , config := boundaryConfig, startTime := 0
  , recordingId := "rec", store := [] }

/-- Fold form of the per-chunk `put` loop in `flushToIndexedDB`, over the
already-built records (equal to the source's fold over chunks by
`List.foldl_map`). -/
def idbPutAll (store : List ChunkRecord) (recs : List ChunkRecord) : List ChunkRecord :=
  recs.foldl idbPut store

/-- Running totals of `uploadedBytes` after each simulated chunk step. -/
def partialSums : List Nat → Nat → List Nat
  | [], _ => []
  | sz :: rest, acc => (acc + sz) :: partialSums rest (acc + sz)

/-- The percentage values the simulated chunk loop reports:
`(uploadedBytes / totalSize) * 100` after each step. -/
def chunkPercents (chunkSize totalSize : Nat) : List ℚ :=
  (partialSums (sliceSizes chunkSize totalSize) 0).map
    (fun u : Nat => (u : ℚ) / (totalSize : ℚ) * 100)

/- ------------------------------------------------------------------ -/
/- Concrete instances used by counterexamples and witnesses            -/
/- ------------------------------------------------------------------ -/

/-- An environment in which every external step succeeds. -/
def happyEnv : UploadEnv :=
  { user := some "user1"
  , isoTimestamp := "2024-11-16T10:00:00.000Z"
  , storageError := none
  , abortedAt := fun _ => false
  , chunkElapsedMs := fun i => (i + 1) * 100
  , directElapsedMs := 50
  , publicUrl := fun p => "https://cdn.example/" ++ p
  , freshId := "upload_1" }

/-- The success environment with authentication failing. -/
def authFailEnv : UploadEnv := { happyEnv with user := none }

/-- Upload config with a 1-byte chunk size, to exercise the chunked path
on a tiny blob. -/
def tinyChunkConfig : UploadConfig := { defaultUploadConfig with chunkSize := 1 }

/-- Buffer config with auto-flush disabled, so `addChunk` takes the
short-circuited branch that never consults `isNearLimit`. -/
def noAutoFlushConfig : BufferConfig := { defaultBufferConfig with autoFlush := false }

/-- Fresh buffer with auto-flush disabled. -/
def cexBuf : BufferState :=
  { chunks := [], config := noAutoFlushConfig, startTime := 0
  , recordingId := "rec", store := [] }

/-- Two `addChunk` calls landing in the same millisecond, then a flush. -/
def collidingOps : List BufOp :=
  [BufOp.add 5 [0], BufOp.add 5 [1], BufOp.flush]

/-- Three `addChunk` calls at strictly increasing times with a flush in
between. -/
def increasingOps : List BufOp :=
  [BufOp.add 5 [9], BufOp.flush, BufOp.add 7 [], BufOp.add 9 [1, 2]]

/-- A buffer holding two in-memory chunks stamped in the same millisecond. -/
def c10State : BufferState :=
  { chunks :=
      [ { blob := [0], timestamp := 5, size := 1, duration := 1/200 }
      , { blob := [1], timestamp := 5, size := 1, duration := 1/200 } ]
  , config := noAutoFlushConfig, startTime := 0
  , recordingId := "rec", store := [] }

/-- A service tracking one active upload with a registered callback. -/
def oneActiveState : ServiceState :=
  { activeUploads := ["u1"], progressCallbacks := ["u1"], abortedIds := [] }

/-- The chunked-path per-step update delivering 100%; used to show the
next omitted-field update still reads defaults. -/
def fullProgressUpdate : ProgressUpdate :=
  { bytesUploaded := some 300, totalBytes := some 300
  , percentage := some 100, speed := some 10, status := some UploadStatus.uploading }

/- ------------------------------------------------------------------ -/
/- Theorems                                                            -/
/- ------------------------------------------------------------------ -/

theorem ofDigitsLE_digitsRev : ∀ fuel n, n < fuel → ofDigitsLE (digitsRev fuel n) = n := by
  intro fuel
  induction fuel with
  | zero => intro n h; omega
  | succ f ih =>
    intro n h
    by_cases hn : n = 0
    · simp [digitsRev, hn, ofDigitsLE]
    · have hlt : n / 10 < f := by
        have h1 : n / 10 < n := Nat.div_lt_self (Nat.pos_of_ne_zero hn) (by norm_num)
        omega
      simp only [digitsRev, hn, if_false, ofDigitsLE]
      rw [ih _ hlt]
      omega

theorem digitsRev_lt : ∀ fuel n d, d ∈ digitsRev fuel n → d < 10 := by
  intro fuel
  induction fuel with
  | zero => intro n d h; simp [digitsRev] at h
  | succ f ih =>
    intro n d h
    by_cases hn : n = 0
    · simp [digitsRev, hn] at h
    · simp only [digitsRev, hn, if_false, List.mem_cons] at h
      rcases h with h | h
      · subst h; exact Nat.mod_lt _ (by norm_num)
      · exact ih _ _ h

theorem digitChar_inj :
    ∀ d1 < 10, ∀ d2 < 10, Char.ofNat (48 + d1) = Char.ofNat (48 + d2) → d1 = d2 := by
  decide

theorem mapDigitChar_inj :
    ∀ l1 l2 : List Nat, (∀ d ∈ l1, d < 10) → (∀ d ∈ l2, d < 10) →
      l1.map (fun d => Char.ofNat (48 + d)) = l2.map (fun d => Char.ofNat (48 + d)) →
      l1 = l2 := by
  intro l1
  induction l1 with
  | nil => intro l2 _ _ h; cases l2 <;> simp_all
  | cons a t ih =>
    intro l2 h1 h2 h
    cases l2 with
    | nil => simp at h
    | cons b t2 =>
      simp only [List.map_cons, List.cons.injEq] at h
      have ha : a = b := digitChar_inj a (h1 a (by simp)) b (h2 b (by simp)) h.1
      have ht : t = t2 := ih t2 (fun d hd => h1 d (by simp [hd])) (fun d hd => h2 d (by simp [hd])) h.2
      rw [ha, ht]

theorem natRepr_injective : Function.Injective natRepr := by
  intro a b h
  by_cases ha : a = 0 <;> by_cases hb : b = 0
  · omega
  · exfalso
    simp only [natRepr, ha, if_true, hb, if_false] at h
    have hd : (String.mk ['0']).data = (String.mk _).data := congrArg String.data h
    simp only [String.data] at hd
    have hrev : (digitsRev (b + 1) b).map (fun d => Char.ofNat (48 + d)) = ['0'] := by
      have := congrArg List.reverse hd
      simpa using this.symm
    cases hdig : digitsRev (b + 1) b with
    | nil => rw [hdig] at hrev; simp at hrev
    | cons d rest =>
      rw [hdig] at hrev
      simp only [List.map_cons, List.cons.injEq, List.map_eq_nil_iff] at hrev
      have hd10 : d < 10 := digitsRev_lt _ _ _ (by rw [hdig]; simp)
      have hch : Char.ofNat (48 + d) = Char.ofNat (48 + 0) := by simpa using hrev.1
      have hd0 : d = 0 := digitChar_inj d hd10 0 (by norm_num) hch
      have hb0 : ofDigitsLE (digitsRev (b + 1) b) = b := ofDigitsLE_digitsRev _ _ (by omega)
      rw [hdig, hd0, hrev.2] at hb0
      simp [ofDigitsLE] at hb0
      exact hb (hb0.symm)
  · exfalso
    simp only [natRepr, hb, if_true, ha, if_false] at h
    have hd : (String.mk _).data = (String.mk ['0']).data := congrArg String.data h
    simp only [String.data] at hd
    have hrev : (digitsRev (a + 1) a).map (fun d => Char.ofNat (48 + d)) = ['0'] := by
      have := congrArg List.reverse hd
      simpa using this
    cases hdig : digitsRev (a + 1) a with
    | nil => rw [hdig] at hrev; simp at hrev
    | cons d rest =>
      rw [hdig] at hrev
      simp only [List.map_cons, List.cons.injEq, List.map_eq_nil_iff] at hrev
      have hd10 : d < 10 := digitsRev_lt _ _ _ (by rw [hdig]; simp)
      have hch : Char.ofNat (48 + d) = Char.ofNat (48 + 0) := by simpa using hrev.1
      have hd0 : d = 0 := digitChar_inj d hd10 0 (by norm_num) hch
      have ha0 : ofDigitsLE (digitsRev (a + 1) a) = a := ofDigitsLE_digitsRev _ _ (by omega)
      rw [hdig, hd0, hrev.2] at ha0
      simp [ofDigitsLE] at ha0
      exact ha (ha0.symm)
  · simp only [natRepr, ha, hb, if_false] at h
    have hd := congrArg String.data h
    simp only [String.data] at hd
    have hrev := congrArg List.reverse hd
    simp only [List.reverse_reverse] at hrev
    have hdig : digitsRev (a + 1) a = digitsRev (b + 1) b :=
      mapDigitChar_inj _ _ (fun d hd2 => digitsRev_lt _ _ _ hd2)
        (fun d hd2 => digitsRev_lt _ _ _ hd2) hrev
    have h1 : ofDigitsLE (digitsRev (a + 1) a) = a := ofDigitsLE_digitsRev _ _ (by omega)
    have h2 : ofDigitsLE (digitsRev (b + 1) b) = b := ofDigitsLE_digitsRev _ _ (by omega)
    rw [hdig, h2] at h1
    exact h1.symm

theorem chunkRecordId_inj (recordingId : String) {t1 t2 : Nat}
    (h : chunkRecordId recordingId t1 = chunkRecordId recordingId t2) : t1 = t2 := by
  apply natRepr_injective
  unfold chunkRecordId at h
  have hd := congrArg String.data h
  simp only [String.data_append] at hd
  have h2 : (natRepr t1).data = (natRepr t2).data := by
    apply @List.append_cancel_left _ (recordingId.data ++ "_".data)
    simpa [List.append_assoc] using hd
  cases hr1 : natRepr t1
  cases hr2 : natRepr t2
  rw [hr1, hr2] at h2
  simp only at h2
  rw [h2]

theorem statsFuel_none :
    ∀ fuel, (∀ now s, getStatsFuel fuel now s = none) ∧
      (∀ now s, isNearLimitFuel fuel now s = none) := by
  intro fuel
  induction fuel with
  | zero => exact ⟨fun _ _ => rfl, fun _ _ => rfl⟩
  | succ f ih =>
    constructor
    · intro now s
      simp only [getStatsFuel, ih.2 now s]
    · intro now s
      simp only [isNearLimitFuel, ih.1 now s]

/-- C6: the claim states `isNearLimit()` decides the 80% size/duration
rule, which is exactly what the comparison lines in its body intend — but
as written `isNearLimit()` calls `getStats()` and `getStats()` calls
`isNearLimit()` unconditionally, so every call recurses without a base
case and overflows the stack: no stack depth (fuel) suffices for the call
to produce a boolean.  The code, not the claim, is at fault: the repaired
check (the body's comparison lines over the directly computed totals) does
satisfy the claim's boundary — false at 79% of the maximum size, true at
80% and 81% (duration kept below its threshold). -/
theorem claim_C6_isNearLimit_diverges :
    (∀ fuel now s, isNearLimitFuel fuel now s = none) ∧
      nearLimitCheck 0 (boundaryState 79) = false ∧
      nearLimitCheck 0 (boundaryState 80) = true ∧
      nearLimitCheck 0 (boundaryState 81) = true := by
  refine ⟨fun fuel => (statsFuel_none fuel).2, ?_, ?_, ?_⟩ <;>
    norm_num [nearLimitCheck, bufTotalSize, bufTotalDuration, boundaryState,
      boundaryConfig, defaultBufferConfig]

theorem foldl_add_size :
    ∀ (l : List VideoChunk) (n : Nat),
      l.foldl (fun sum c => sum + c.size) n = n + (l.map VideoChunk.size).sum := by
  intro l
  induction l with
  | nil => intro n; simp
  | cons c t ih => intro n; simp [ih, Nat.add_assoc]

/-- C7 counterexample: with the in-memory chunk list empty (for example
after a flush) and 5 seconds of wall-clock elapsed since start, the
duration `getStats` computes is `0`, not the elapsed 5 seconds the claim
requires. -/
theorem claim_C7_counterexample :
    bufTotalDuration 5000 c7State = 0 ∧
      ((5000 : ℚ) - (c7State.startTime : ℚ)) / 1000 = 5 ∧ (0 : ℚ) ≠ 5 := by
  refine ⟨rfl, ?_, by norm_num⟩
  norm_num [c7State]

/-- C7 (amended): the aggregate size `getStats` computes is the sum of the
in-memory chunk sizes only — independent of the persisted store — and the
duration it computes is the wall-clock time since start when the in-memory
chunk list is nonempty; when the list is empty the computed duration is
`0`, not the elapsed time.  (Separately, `getStats()` as written never
actually returns — see `claim_C6_isNearLimit_diverges`.) -/
theorem claim_C7_stats_fields (now : Nat) (s : BufferState) (h : s.chunks ≠ []) :
    bufTotalSize s = (s.chunks.map VideoChunk.size).sum ∧
      (∀ store2 : List ChunkRecord, bufTotalSize { s with store := store2 } = bufTotalSize s) ∧
      bufTotalDuration now s = ((now : ℚ) - (s.startTime : ℚ)) / 1000 ∧
      bufTotalDuration now { s with chunks := [] } = 0 := by
  refine ⟨by simpa using foldl_add_size s.chunks 0, fun store2 => rfl, ?_, rfl⟩
  have hl : s.chunks.length > 0 := List.length_pos.2 h
  simp [bufTotalDuration, hl]

theorem claim_C7_stats_fields_witness :
    c7StateB.chunks ≠ [] ∧ bufTotalDuration 7000 c7StateB = 7 := by
  refine ⟨by decide, ?_⟩
  have h := claim_C7_stats_fields 7000 c7StateB (by decide)
  rw [h.2.2.1]
  norm_num [c7StateB]

theorem collapse_sublist : ∀ l : List Char, (collapseUnderscores l).Sublist l := by
  intro l
  induction l with
  | nil => simp [collapseUnderscores]
  | cons c t ih =>
    cases t with
    | nil => simp [collapseUnderscores]
    | cons d rest =>
      by_cases h : (c = '_' && d = '_') = true
      · simpa [collapseUnderscores, h] using List.Sublist.cons c ih
      · simpa [collapseUnderscores, h] using List.Sublist.cons₂ c ih

theorem collapse_cons :
    ∀ (rest : List Char) (d : Char), ∃ t, collapseUnderscores (d :: rest) = d :: t := by
  intro rest
  induction rest with
  | nil => exact fun d => ⟨[], rfl⟩
  | cons e r ih =>
    intro d
    by_cases h : (d = '_' && e = '_') = true
    · obtain ⟨t, ht⟩ := ih e
      refine ⟨t, ?_⟩
      simp only [collapseUnderscores, h, if_true, ht]
      simp only [Bool.and_eq_true, decide_eq_true_eq] at h
      rw [h.1, h.2]
    · exact ⟨collapseUnderscores (e :: r), by simp [collapseUnderscores, h]⟩

theorem collapse_noDouble :
    ∀ l : List Char,
      List.Chain' (fun a b => ¬(a = '_' ∧ b = '_')) (collapseUnderscores l) := by
  intro l
  induction l with
  | nil => simp [collapseUnderscores]
  | cons c t ih =>
    cases t with
    | nil => simp [collapseUnderscores]
    | cons d rest =>
      by_cases h : (c = '_' && d = '_') = true
      · simpa [collapseUnderscores, h] using ih
      · obtain ⟨t0, ht⟩ := collapse_cons rest d
        have hgoal : collapseUnderscores (c :: d :: rest)
            = c :: collapseUnderscores (d :: rest) := by
          simp [collapseUnderscores, h]
        rw [hgoal, ht, List.chain'_cons]
        refine ⟨?_, ht ▸ ih⟩
        simp only [Bool.and_eq_true, decide_eq_true_eq] at h
        tauto

theorem chain_dropLast {α : Type} {P : α → α → Prop} :
    ∀ l : List α, List.Chain' P l → List.Chain' P l.dropLast := by
  intro l
  induction l with
  | nil => simp
  | cons a t ih =>
    intro h
    cases t with
    | nil => simp
    | cons b r =>
      have hstep : (a :: b :: r).dropLast = a :: (b :: r).dropLast := rfl
      rw [hstep]
      rw [List.chain'_cons] at h
      have htail := ih h.2
      cases r with
      | nil => simp
      | cons c r2 =>
        have h2 : (b :: c :: r2).dropLast = b :: (c :: r2).dropLast := rfl
        rw [h2] at htail ⊢
        exact List.chain'_cons.mpr ⟨h.1, htail⟩

theorem dropLast_last_ne :
    ∀ l : List Char, List.Chain' (fun a b => ¬(a = '_' ∧ b = '_')) l →
      l.getLast? = some '_' → l.dropLast.getLast? ≠ some '_' := by
  intro l
  induction l with
  | nil => simp
  | cons a t ih =>
    intro h hl
    cases t with
    | nil => simp
    | cons b r =>
      have hstep : (a :: b :: r).dropLast = a :: (b :: r).dropLast := rfl
      rw [hstep]
      rw [List.getLast?_cons_cons] at hl
      rw [List.chain'_cons] at h
      cases r with
      | nil =>
        have hb : b = '_' := by simpa using hl
        intro hcon
        have ha : a = '_' := by simpa using hcon
        exact h.1 ⟨ha, hb⟩
      | cons c r2 =>
        have h2 : (b :: c :: r2).dropLast = b :: (c :: r2).dropLast := rfl
        have hne := ih h.2 hl
        rw [h2] at hne
        rw [h2, List.getLast?_cons_cons]
        exact hne

theorem dropLast_head :
    ∀ (l : List Char) (x : Char), l.dropLast.head? = some x → l.head? = some x := by
  intro l x
  cases l with
  | nil => simp
  | cons a t =>
    cases t with
    | nil => simp
    | cons b r =>
      have hstep : (a :: b :: r).dropLast = a :: (b :: r).dropLast := rfl
      rw [hstep]
      simp

theorem trim_core (l1 : List Char)
    (h1 : List.Chain' (fun a b => ¬(a = '_' ∧ b = '_')) l1)
    (hh : l1.head? ≠ some '_') :
    (if l1.getLast? = some '_' then l1.dropLast else l1).head? ≠ some '_' ∧
      (if l1.getLast? = some '_' then l1.dropLast else l1).getLast? ≠ some '_' ∧
      List.Chain' (fun a b => ¬(a = '_' ∧ b = '_'))
        (if l1.getLast? = some '_' then l1.dropLast else l1) ∧
      (if l1.getLast? = some '_' then l1.dropLast else l1).Sublist l1 := by
  by_cases hl : l1.getLast? = some '_'
  · simp only [if_pos hl]
    refine ⟨?_, dropLast_last_ne l1 h1 hl, chain_dropLast l1 h1, List.dropLast_sublist l1⟩
    intro hcon
    exact hh (dropLast_head l1 _ hcon)
  · simp only [if_neg hl]
    exact ⟨hh, hl, h1, List.Sublist.refl l1⟩

theorem trim_spec (l : List Char)
    (h : List.Chain' (fun a b => ¬(a = '_' ∧ b = '_')) l) :
    (trimEdgeUnderscores l).head? ≠ some '_' ∧
      (trimEdgeUnderscores l).getLast? ≠ some '_' ∧
      List.Chain' (fun a b => ¬(a = '_' ∧ b = '_')) (trimEdgeUnderscores l) ∧
      (trimEdgeUnderscores l).Sublist l := by
  by_cases hh0 : l.head? = some '_'
  · have hun : trimEdgeUnderscores l
        = if l.tail.getLast? = some '_' then l.tail.dropLast else l.tail := by
      simp [trimEdgeUnderscores, hh0]
    have h1 : List.Chain' (fun a b : Char => ¬(a = '_' ∧ b = '_')) l.tail :=
      List.Chain'.tail h
    have hh : l.tail.head? ≠ some '_' := by
      cases l with
      | nil => simp
      | cons a t =>
        have ha : a = '_' := by simpa using hh0
        cases t with
        | nil => simp
        | cons b r =>
          rw [ha, List.chain'_cons] at h
          simp only [List.tail_cons, List.head?_cons]
          intro hb
          exact h.1 ⟨rfl, by simpa using hb⟩
    have hcore := trim_core l.tail h1 hh
    rw [hun]
    exact ⟨hcore.1, hcore.2.1, hcore.2.2.1, hcore.2.2.2.trans (List.tail_sublist l)⟩
  · have hun : trimEdgeUnderscores l
        = if l.getLast? = some '_' then l.dropLast else l := by
      simp [trimEdgeUnderscores, hh0]
    rw [hun]
    exact trim_core l h hh0

theorem replaceDisallowed_mem (l : List Char) :
    ∀ c ∈ replaceDisallowed l, allowedChar c = true ∨ c = '_' := by
  intro c hc
  simp only [replaceDisallowed, List.mem_map] at hc
  obtain ⟨a, _, ha⟩ := hc
  by_cases h : allowedChar a = true
  · left; rw [← ha]; simp [h]
  · right; rw [← ha]; simp [h]

/-- C4 (amended): `sanitizeFilename` replaces every character outside
`[A-Za-z0-9.-]` with `_`, leaves no two adjacent underscores and no
leading or trailing underscore — but the concrete example in the claim is
wrong: `"my video!.webm"` sanitizes to `"my_video_.webm"` (the `_` that
replaces `!` sits between alphanumerics and the `.`, so no pass removes
it), not to `"my_video.webm"`. -/
theorem claim_C4_sanitizeFilename (filename : String) :
    (∀ c ∈ (sanitizeFilename filename).data, allowedChar c = true ∨ c = '_') ∧
      List.Chain' (fun a b => ¬(a = '_' ∧ b = '_')) (sanitizeFilename filename).data ∧
      (sanitizeFilename filename).data.head? ≠ some '_' ∧
      (sanitizeFilename filename).data.getLast? ≠ some '_' ∧
      sanitizeFilename "my video!.webm" = "my_video_.webm" := by
  have hdata :
      (sanitizeFilename filename).data
        = trimEdgeUnderscores (collapseUnderscores (replaceDisallowed filename.data)) := rfl
  have hchain := collapse_noDouble (replaceDisallowed filename.data)
  have htrim := trim_spec _ hchain
  refine ⟨?_, hdata ▸ htrim.2.2.1, hdata ▸ htrim.1, hdata ▸ htrim.2.1, by decide⟩
  intro c hc
  rw [hdata] at hc
  exact replaceDisallowed_mem _ c
    ((collapse_sublist _).subset (htrim.2.2.2.subset hc))

/-- C4 counterexample: the claim's example output is not what the code
produces — the `!` before the extension becomes an underscore that
survives all three passes. -/
theorem claim_C4_counterexample :
    sanitizeFilename "my video!.webm" = "my_video_.webm" ∧
      "my_video_.webm" ≠ "my_video.webm" := by
  constructor <;> decide

theorem mem_mapSet_self (l : List String) (a : String) : a ∈ mapSet l a := by
  unfold mapSet
  by_cases h : a ∈ l
  · simp [h]
  · simp [h]

/-- C8: cancelling an active upload whose callback is registered signals
the abort handle, delivers exactly one `cancelled` event, removes the id
from both maps — after which `updateProgress` delivers nothing further for
that id — and cancelling an id with no live controller changes nothing and
emits nothing. -/
theorem claim_C8_cancelUpload (st : ServiceState) (id : String)
    (h1 : id ∈ st.activeUploads) (h2 : id ∈ st.progressCallbacks) :
    (cancelUpload st id).2
        = [mkProgress id { status := some UploadStatus.cancelled }] ∧
      (mkProgress id { status := some UploadStatus.cancelled }).status
        = UploadStatus.cancelled ∧
      id ∈ (cancelUpload st id).1.abortedIds ∧
      id ∉ (cancelUpload st id).1.activeUploads ∧
      id ∉ (cancelUpload st id).1.progressCallbacks ∧
      (∀ u, updateProgress (cancelUpload st id).1 id u = []) ∧
      (∀ (st2 : ServiceState) (id2 : String), id2 ∉ st2.activeUploads →
        cancelUpload st2 id2 = (st2, [])) := by
  refine ⟨?_, rfl, ?_, ?_, ?_, ?_, ?_⟩
  · simp [cancelUpload, h1, updateProgress, h2]
  · simp [cancelUpload, h1, cleanup, mem_mapSet_self]
  · simp [cancelUpload, h1, cleanup, mapDelete]
  · simp [cancelUpload, h1, cleanup, mapDelete]
  · intro u
    simp [cancelUpload, h1, cleanup, updateProgress, mapDelete]
  · intro st2 id2 hno
    simp [cancelUpload, hno]

theorem claim_C8_cancelUpload_witness :
    (cancelUpload oneActiveState "u1").2
        = [mkProgress "u1" { status := some UploadStatus.cancelled }] ∧
      cancelUpload emptyServiceState "zz" = (emptyServiceState, []) := by
  have h := claim_C8_cancelUpload oneActiveState "u1" (by decide) (by decide)
  exact ⟨h.1, h.2.2.2.2.2.2 emptyServiceState "zz" (by decide)⟩

/-- C9: `updateProgress` keeps no per-upload progress record — each event
is the fixed defaults overlaid with just the one update passed in, so any
field the update omits reports its default (`bytesUploaded 0`,
`totalBytes 0`, `percentage 0`, status `pending`) no matter what any
earlier update for the same id reported. -/
theorem claim_C9_progress_defaults (st : ServiceState) (id : String)
    (u1 u2 : ProgressUpdate) (hcb : id ∈ st.progressCallbacks)
    (hb : u2.bytesUploaded = none) (ht : u2.totalBytes = none)
    (hp : u2.percentage = none) (hs : u2.status = none) :
    updateProgress st id u1 ++ updateProgress st id u2
        = [mkProgress id u1, mkProgress id u2] ∧
      (mkProgress id u2).bytesUploaded = 0 ∧
      (mkProgress id u2).totalBytes = 0 ∧
      (mkProgress id u2).percentage = 0 ∧
      (mkProgress id u2).status = UploadStatus.pending := by
  refine ⟨by simp [updateProgress, hcb], ?_, ?_, ?_, ?_⟩ <;>
    simp [mkProgress, hb, ht, hp, hs]

theorem claim_C9_progress_defaults_witness :
    updateProgress oneActiveState "u1" fullProgressUpdate
        ++ updateProgress oneActiveState "u1" {}
        = [mkProgress "u1" fullProgressUpdate, mkProgress "u1" {}] ∧
      (mkProgress "u1" ({} : ProgressUpdate)).percentage = 0 := by
  have h := claim_C9_progress_defaults oneActiveState "u1" fullProgressUpdate {}
    (by decide) rfl rfl rfl rfl
  exact ⟨h.1, h.2.2.2.1⟩

/-- C2 (amended): a blob no larger than twice the configured chunk size
does select the direct strategy, but the callback for a successful upload
receives five events, not two: `pending` at 0%, `uploading` at 0% (the
status-only update reads the default percentage), the direct-upload
completion event at 100% (whose omitted status reads the default
`pending`), `processing` at 0% (again the default), and `completed` at
100%.  The percentages that occur are only 0 and 100, starting at 0 and
ending at 100, but the sequence has five events. -/
theorem claim_C2_direct_progress (cfg : UploadConfig) (st : ServiceState)
    (env : UploadEnv) (blobSize : Nat) (filename : String)
    (hints : MetadataHints) (uid : String)
    (hsize : blobSize ≤ cfg.chunkSize * 2)
    (huser : env.user = some uid)
    (hse : env.storageError = none) :
    chooseStrategy cfg blobSize = UploadStrategy.direct ∧
      (uploadVideo cfg st env blobSize filename hints true).2.1.map
          UploadProgress.percentage = [0, 0, 100, 0, 100] ∧
      (uploadVideo cfg st env blobSize filename hints true).2.1.map
          UploadProgress.status
        = [UploadStatus.pending, UploadStatus.uploading, UploadStatus.pending,
           UploadStatus.processing, UploadStatus.completed] ∧
      (uploadVideo cfg st env blobSize filename hints true).2.2.success = true := by
  have hstrat : chooseStrategy cfg blobSize = UploadStrategy.direct := by
    simp [chooseStrategy, Nat.not_lt.2 hsize]
  have hmem : env.freshId ∈ mapSet st.progressCallbacks env.freshId := mem_mapSet_self _ _
  refine ⟨hstrat, ?_, ?_, ?_⟩ <;>
    simp [uploadVideo, huser, hstrat, hse, directUpload, updateProgress, hmem, mkProgress]

theorem claim_C2_direct_progress_witness :
    (uploadVideo defaultUploadConfig emptyServiceState happyEnv 1 "a.webm" {}
        true).2.1.map UploadProgress.percentage = [0, 0, 100, 0, 100] :=
  (claim_C2_direct_progress defaultUploadConfig emptyServiceState happyEnv 1
    "a.webm" {} "user1" (by norm_num [defaultUploadConfig]) rfl rfl).2.1

/-- C2 counterexample: for a 1-byte blob (well under twice the default
5 MB chunk size) with every external step succeeding, the callback
receives five events, not the two the claim states. -/
theorem claim_C2_counterexample :
    chooseStrategy defaultUploadConfig 1 = UploadStrategy.direct ∧
      (uploadVideo defaultUploadConfig emptyServiceState happyEnv 1 "a.webm" {}
        true).2.1.length = 5 ∧
      (uploadVideo defaultUploadConfig emptyServiceState happyEnv 1 "a.webm" {}
        true).2.1.length ≠ 2 := by
  refine ⟨rfl, ?_, ?_⟩ <;> decide

theorem sliceSizes_sum (cs : Nat) (hcs : 0 < cs) :
    ∀ total : Nat, (sliceSizes cs total).sum = total := by
  intro total
  induction total using Nat.strong_induction_on with
  | _ total ih =>
    by_cases h0 : total = 0
    · subst h0
      have htc : (0 + cs - 1) / cs = 0 := Nat.div_eq_of_lt (by omega)
      simp [sliceSizes, htc]
    · by_cases h1 : total ≤ cs
      · have htc : (total + cs - 1) / cs = 1 := by
          apply Nat.div_eq_of_lt_le <;> omega
        have hr1 : List.range 1 = [0] := by simp [List.range_succ]
        simp only [sliceSizes, htc, hr1, List.map_cons, List.map_nil,
          List.sum_cons, List.sum_nil, Nat.zero_mul, Nat.zero_add]
        omega
      · have hgt : cs < total := by omega
        have htc : (total + cs - 1) / cs = ((total - cs) + cs - 1) / cs + 1 := by
          have heq : total + cs - 1 = ((total - cs) + cs - 1) + cs := by omega
          rw [heq, Nat.add_div_right _ hcs]
        have hpt : ∀ i : Nat,
            min ((i + 1) * cs + cs) total - (i + 1) * cs
              = min (i * cs + cs) (total - cs) - i * cs := by
          intro i
          have hm : (i + 1) * cs = i * cs + cs := by ring
          rw [hm]
          omega
        have hrest :
            (List.range (((total - cs) + cs - 1) / cs)).map
                (fun i => min ((i + 1) * cs + cs) total - (i + 1) * cs)
              = sliceSizes cs (total - cs) := by
          unfold sliceSizes
          exact List.map_congr_left (fun i _ => hpt i)
        have hih : (sliceSizes cs (total - cs)).sum = total - cs :=
          ih (total - cs) (by omega)
        unfold sliceSizes
        rw [htc, List.range_succ_eq_map, List.map_cons, List.map_map, List.sum_cons]
        have hshift :
            (List.range (((total - cs) + cs - 1) / cs)).map
                ((fun i => min (i * cs + cs) total - i * cs) ∘ Nat.succ)
              = sliceSizes cs (total - cs) := by
          rw [← hrest]
          apply List.map_congr_left
          intro i _
          simp [Function.comp, Nat.succ_eq_add_one]
        rw [hshift, hih]
        have : min (0 * cs + cs) total - 0 * cs = cs := by omega
        rw [this]
        omega

theorem partialSums_chain :
    ∀ (l : List Nat) (acc : Nat), List.Chain' (· ≤ ·) (partialSums l acc) := by
  intro l
  induction l with
  | nil => intro acc; simp [partialSums]
  | cons sz rest ih =>
    intro acc
    rw [partialSums, List.chain'_cons']
    refine ⟨?_, ih (acc + sz)⟩
    intro y hy
    cases rest with
    | nil => simp [partialSums] at hy
    | cons sz2 r2 =>
      rw [partialSums] at hy
      simp only [List.head?_cons, Option.mem_def, Option.some.injEq] at hy
      omega

theorem partialSums_getLast :
    ∀ (l : List Nat) (acc : Nat), l ≠ [] →
      (partialSums l acc).getLast? = some (acc + l.sum) := by
  intro l
  induction l with
  | nil => intro acc h; exact absurd rfl h
  | cons sz rest ih =>
    intro acc _
    rw [partialSums]
    cases rest with
    | nil => simp [partialSums]
    | cons sz2 r2 =>
      have hne : partialSums (sz2 :: r2) (acc + sz) = (acc + sz + sz2) :: partialSums r2 (acc + sz + sz2) := rfl
      rw [hne, List.getLast?_cons_cons, ← hne, ih (acc + sz) (by simp)]
      simp only [List.sum_cons, Option.some.injEq]
      ring

theorem chunkedLoop_no_abort (st : ServiceState) (uploadId : String)
    (env : UploadEnv) (totalSize : Nat)
    (hab : ∀ i, env.abortedAt i = false)
    (hcb : uploadId ∈ st.progressCallbacks) :
    ∀ (sizes : List Nat) (acc i : Nat),
      (chunkedLoop st uploadId env totalSize sizes acc i).2 = none ∧
        (chunkedLoop st uploadId env totalSize sizes acc i).1.map
            UploadProgress.percentage
          = (partialSums sizes acc).map
              (fun u : Nat => (u : ℚ) / (totalSize : ℚ) * 100) := by
  intro sizes
  induction sizes with
  | nil => intro acc i; simp [chunkedLoop, partialSums]
  | cons sz rest ih =>
    intro acc i
    have hstep := ih (acc + sz) (i + 1)
    constructor
    · simp only [chunkedLoop, hab i, Bool.false_eq_true, if_false]
      exact hstep.1
    · simp only [chunkedLoop, hab i, Bool.false_eq_true, if_false, updateProgress,
        hcb, if_pos, List.map_append, List.map_cons, List.map_nil, partialSums,
        mkProgress, Option.getD_some]
      rw [hstep.2]
      simp [mkProgress]

theorem chunkPercents_chain (cs totalSize : Nat) (hpos : 0 < totalSize) :
    List.Chain' (· ≤ ·) (chunkPercents cs totalSize) := by
  unfold chunkPercents
  refine (List.chain'_map (fun u : Nat => (u : ℚ) / (totalSize : ℚ) * 100)).mpr ?_
  apply List.Chain'.imp ?_ (partialSums_chain _ 0)
  intro a b hab
  have hT : (0 : ℚ) < (totalSize : ℚ) := by exact_mod_cast hpos
  have hab2 : (a : ℚ) ≤ (b : ℚ) := by exact_mod_cast hab
  gcongr

theorem sliceSizes_ne_nil (cs totalSize : Nat) (hcs : 0 < cs) (hpos : 0 < totalSize) :
    sliceSizes cs totalSize ≠ [] := by
  unfold sliceSizes
  have hdiv : 0 < (totalSize + cs - 1) / cs := Nat.div_pos (by omega) hcs
  intro h
  rw [List.map_eq_nil_iff, List.range_eq_nil] at h
  omega

theorem chunkPercents_getLast (cs totalSize : Nat) (hcs : 0 < cs)
    (hpos : 0 < totalSize) :
    (chunkPercents cs totalSize).getLast? = some 100 := by
  unfold chunkPercents
  rw [List.getLast?_map (fun u : Nat => (u : ℚ) / (totalSize : ℚ) * 100)
      (partialSums (sliceSizes cs totalSize) 0),
    partialSums_getLast _ 0 (sliceSizes_ne_nil cs totalSize hcs hpos),
    sliceSizes_sum cs hcs totalSize]
  have hT : (totalSize : ℚ) ≠ 0 := by
    exact_mod_cast Nat.pos_iff_ne_zero.mp hpos
  simp only [Nat.zero_add]
  have hred : Option.map (fun u : Nat => (u : ℚ) / (totalSize : ℚ) * 100) (some totalSize)
      = some ((totalSize : ℚ) / (totalSize : ℚ) * 100) := rfl
  rw [hred, div_self hT, one_mul]

theorem uploadVideo_chunked_events (cfg : UploadConfig) (st : ServiceState)
    (env : UploadEnv) (blobSize : Nat) (filename : String)
    (hints : MetadataHints) (uid : String)
    (hsize : blobSize > cfg.chunkSize * 2)
    (huser : env.user = some uid)
    (hse : env.storageError = none)
    (hab : ∀ i, env.abortedAt i = false) :
    (uploadVideo cfg st env blobSize filename hints true).2.1.map
        UploadProgress.percentage
      = 0 :: 0 :: chunkPercents cfg.chunkSize blobSize ++ [0, 100] := by
  have hstrat : chooseStrategy cfg blobSize = UploadStrategy.chunked := by
    simp [chooseStrategy, hsize]
  have hmem : env.freshId ∈ mapSet st.progressCallbacks env.freshId := mem_mapSet_self _ _
  have hloop := chunkedLoop_no_abort
    { st with activeUploads := mapSet st.activeUploads env.freshId
            , progressCallbacks := mapSet st.progressCallbacks env.freshId }
    env.freshId env blobSize hab hmem (sliceSizes cfg.chunkSize blobSize) 0 0
  simp only [uploadVideo, huser, hstrat, chunkedUpload, hse, if_true,
    updateProgress, hmem, if_pos, List.map_append, List.map_cons, List.map_nil,
    hloop.1, hloop.2, mkProgress, Option.getD_some]
  simp [chunkPercents]

/-- C3 (amended): a blob strictly larger than twice the configured chunk
size does select the chunked strategy, and on a successful upload the
delivered percentage sequence terminates at 100 — but it is not
monotonically non-decreasing: the per-chunk simulation events rise
monotonically to 100, after which the status-only `processing` event
reports the default percentage 0 before the final `completed` event at
100. -/
theorem claim_C3_chunked_progress (cfg : UploadConfig) (st : ServiceState)
    (env : UploadEnv) (blobSize : Nat) (filename : String)
    (hints : MetadataHints) (uid : String)
    (hcs : 0 < cfg.chunkSize)
    (hsize : blobSize > cfg.chunkSize * 2)
    (huser : env.user = some uid)
    (hse : env.storageError = none)
    (hab : ∀ i, env.abortedAt i = false) :
    chooseStrategy cfg blobSize = UploadStrategy.chunked ∧
      (uploadVideo cfg st env blobSize filename hints true).2.1.map
          UploadProgress.percentage
        = 0 :: 0 :: chunkPercents cfg.chunkSize blobSize ++ [0, 100] ∧
      List.Chain' (· ≤ ·) (chunkPercents cfg.chunkSize blobSize) ∧
      (chunkPercents cfg.chunkSize blobSize).getLast? = some 100 ∧
      ((uploadVideo cfg st env blobSize filename hints true).2.1.map
          UploadProgress.percentage).getLast? = some 100 ∧
      ¬ List.Chain' (· ≤ ·)
        ((uploadVideo cfg st env blobSize filename hints true).2.1.map
          UploadProgress.percentage) := by
  have hpos : 0 < blobSize := by omega
  have hevents := uploadVideo_chunked_events cfg st env blobSize filename hints uid
    hsize huser hse hab
  have hchain := chunkPercents_chain cfg.chunkSize blobSize hpos
  have hlast := chunkPercents_getLast cfg.chunkSize blobSize hcs hpos
  have hstrat : chooseStrategy cfg blobSize = UploadStrategy.chunked := by
    simp [chooseStrategy, hsize]
  have hne : chunkPercents cfg.chunkSize blobSize ≠ [] := by
    intro h
    rw [h] at hlast
    simp at hlast
  have hl2 : ((0 : ℚ) :: 0 :: chunkPercents cfg.chunkSize blobSize).getLast?
      = some 100 := by
    rw [List.getLast?_cons_cons]
    cases hps : chunkPercents cfg.chunkSize blobSize with
    | nil => exact absurd hps hne
    | cons p ps2 =>
      rw [List.getLast?_cons_cons, ← hps]
      exact hlast
  refine ⟨hstrat, hevents, hchain, hlast, ?_, ?_⟩
  · rw [hevents]
    have hsplit : (0 : ℚ) :: 0 :: chunkPercents cfg.chunkSize blobSize ++ [0, 100]
        = ((0 : ℚ) :: 0 :: chunkPercents cfg.chunkSize blobSize ++ [0]) ++ [100] := by
      simp
    rw [hsplit, List.getLast?_concat]
  · rw [hevents]
    intro hcon
    have hsplit : (0 : ℚ) :: 0 :: chunkPercents cfg.chunkSize blobSize ++ [0, 100]
        = ((0 : ℚ) :: 0 :: chunkPercents cfg.chunkSize blobSize) ++ [0, 100] := by
      simp
    rw [hsplit, List.chain'_append] at hcon
    have h100 := hcon.2.2 100 (by rw [hl2]; rfl) 0 (by rfl)
    norm_num at h100

theorem claim_C3_chunked_progress_witness :
    chooseStrategy tinyChunkConfig 3 = UploadStrategy.chunked ∧
      ((uploadVideo tinyChunkConfig emptyServiceState happyEnv 3 "a.webm" {}
          true).2.1.map UploadProgress.percentage).getLast? = some 100 := by
  have h := claim_C3_chunked_progress tinyChunkConfig emptyServiceState happyEnv 3
    "a.webm" {} "user1" (by norm_num [tinyChunkConfig, defaultUploadConfig])
    (by norm_num [tinyChunkConfig, defaultUploadConfig]) rfl rfl (fun _ => rfl)
  exact ⟨h.1, h.2.2.2.2.1⟩

/-- C3 counterexample: with a 1-byte chunk size and a 3-byte blob, the full
delivered percentage sequence is `0, 0, 100/3, 200/3, 100, 0, 100` — the
`processing` event drops back to 0 after 100 has been reported, so the
sequence is not monotonically non-decreasing (though it does end at 100). -/
theorem claim_C3_counterexample :
    chooseStrategy tinyChunkConfig 3 = UploadStrategy.chunked ∧
      (uploadVideo tinyChunkConfig emptyServiceState happyEnv 3 "a.webm" {}
          true).2.1.map UploadProgress.percentage
        = [0, 0, 100/3, 200/3, 100, 0, 100] ∧
      ¬ List.Chain' (· ≤ ·)
        ((uploadVideo tinyChunkConfig emptyServiceState happyEnv 3 "a.webm" {}
          true).2.1.map UploadProgress.percentage) := by
  have hev := uploadVideo_chunked_events tinyChunkConfig emptyServiceState happyEnv 3
    "a.webm" {} "user1" (by norm_num [tinyChunkConfig, defaultUploadConfig]) rfl rfl
    (fun _ => rfl)
  have hcp : chunkPercents tinyChunkConfig.chunkSize 3 = [100/3, 200/3, 100] := by
    norm_num [chunkPercents, sliceSizes, partialSums, tinyChunkConfig,
      defaultUploadConfig, List.range_succ]
  have heq : (uploadVideo tinyChunkConfig emptyServiceState happyEnv 3 "a.webm" {}
      true).2.1.map UploadProgress.percentage
      = [0, 0, 100/3, 200/3, 100, 0, 100] := by
    rw [hev, hcp]
    norm_num
  refine ⟨rfl, heq, ?_⟩
  rw [heq]
  intro hcon
  simp only [List.chain'_cons, List.chain'_singleton] at hcon
  norm_num at hcon

theorem uploadVideo_state (cfg : UploadConfig) (st : ServiceState) (env : UploadEnv)
    (blobSize : Nat) (filename : String) (hints : MetadataHints) (hcb : Bool) :
    (uploadVideo cfg st env blobSize filename hints hcb).1
      = cleanup
          { st with
            activeUploads := mapSet st.activeUploads env.freshId
            progressCallbacks :=
              if hcb then mapSet st.progressCallbacks env.freshId
              else st.progressCallbacks }
          env.freshId := by
  unfold uploadVideo uploadVideoFail
  rcases hu : env.user with _ | uid
  · simp only [hu]
  · simp only [hu]
    split <;> rfl

theorem getLast_cons_append_singleton {α : Type} (x : α) (l : List α) (e : α) :
    (x :: (l ++ [e])).getLast? = some e := by
  rw [show x :: (l ++ [e]) = (x :: l) ++ [e] by simp, List.getLast?_concat]

theorem uploadVideo_failure_shape (cfg : UploadConfig) (st : ServiceState)
    (env : UploadEnv) (blobSize : Nat) (filename : String) (hints : MetadataHints) :
    (uploadVideo cfg st env blobSize filename hints true).2.2.success = true ∨
      ∃ msg,
        (uploadVideo cfg st env blobSize filename hints true).2.2.success = false ∧
          (uploadVideo cfg st env blobSize filename hints true).2.2.error = some msg ∧
          (uploadVideo cfg st env blobSize filename hints true).2.1.getLast?
            = some (mkProgress env.freshId
                { status := some UploadStatus.error, error := some msg }) := by
  have hmem : env.freshId ∈ mapSet st.progressCallbacks env.freshId := mem_mapSet_self _ _
  rcases hu : env.user with _ | uid
  · right
    refine ⟨"User not authenticated", ?_, ?_, ?_⟩ <;>
      simp [uploadVideo, hu, uploadVideoFail, updateProgress, hmem, List.getLast?_concat, getLast_cons_append_singleton]
  · rcases hstrat : chooseStrategy cfg blobSize with _ | _
    · rcases hse : env.storageError with _ | m
      · left
        simp [uploadVideo, hu, hstrat, directUpload, hse]
      · right
        refine ⟨m, ?_, ?_, ?_⟩ <;>
          simp [uploadVideo, hu, hstrat, directUpload, hse, uploadVideoFail,
            updateProgress, hmem, List.getLast?_concat, getLast_cons_append_singleton]
    · rcases hpair : chunkedLoop
          { st with activeUploads := mapSet st.activeUploads env.freshId
                  , progressCallbacks := mapSet st.progressCallbacks env.freshId }
          env.freshId env blobSize (sliceSizes cfg.chunkSize blobSize) 0 0
        with ⟨evs, r⟩
      rcases r with _ | m
      · rcases hse : env.storageError with _ | m2
        · left
          simp [uploadVideo, hu, hstrat, chunkedUpload, hpair, hse]
        · right
          refine ⟨m2, ?_, ?_, ?_⟩ <;>
            simp [uploadVideo, hu, hstrat, chunkedUpload, hpair, hse, uploadVideoFail,
              updateProgress, hmem, List.getLast?_concat, getLast_cons_append_singleton]
      · right
        refine ⟨m, ?_, ?_, ?_⟩ <;>
          simp [uploadVideo, hu, hstrat, chunkedUpload, hpair, uploadVideoFail,
            updateProgress, hmem, List.getLast?_concat, getLast_cons_append_singleton]

/-- C5: `uploadVideo` never throws past its boundary — in this embedding it
is a total function into a result record, mirroring the source's
all-enclosing try/catch.  Whenever the returned result has
`success = false` (no authenticated user, a storage error, or the
cancellation signal observed mid-loop), the last event delivered to the
registered callback carries the `error` status with the failure
description, the result carries the same description, and both per-id
handles (abort controller and callback) have been released; the
unauthenticated case in particular fails with `"User not authenticated"`. -/
theorem claim_C5_failure_result (cfg : UploadConfig) (st : ServiceState)
    (env : UploadEnv) (blobSize : Nat) (filename : String) (hints : MetadataHints) :
    ((uploadVideo cfg st env blobSize filename hints true).2.2.success = false →
      ∃ msg,
        (uploadVideo cfg st env blobSize filename hints true).2.2.error = some msg ∧
          (uploadVideo cfg st env blobSize filename hints true).2.1.getLast?
            = some (mkProgress env.freshId
                { status := some UploadStatus.error, error := some msg })) ∧
      env.freshId ∉ (uploadVideo cfg st env blobSize filename hints true).1.activeUploads ∧
      env.freshId ∉ (uploadVideo cfg st env blobSize filename hints true).1.progressCallbacks ∧
      (env.user = none →
        (uploadVideo cfg st env blobSize filename hints true).2.2.success = false ∧
          (uploadVideo cfg st env blobSize filename hints true).2.2.error
            = some "User not authenticated") := by
  refine ⟨?_, ?_, ?_, ?_⟩
  · intro hfail
    rcases uploadVideo_failure_shape cfg st env blobSize filename hints with h | ⟨msg, _, h2, h3⟩
    · rw [h] at hfail
      exact absurd hfail (by simp)
    · exact ⟨msg, h2, h3⟩
  · rw [uploadVideo_state]
    simp [cleanup, mapDelete]
  · rw [uploadVideo_state]
    simp [cleanup, mapDelete]
  · intro hu
    constructor <;> simp [uploadVideo, hu, uploadVideoFail]

theorem claim_C5_failure_result_witness :
    (uploadVideo defaultUploadConfig emptyServiceState authFailEnv 1 "a.webm" {}
        true).2.2.success = false ∧
      (uploadVideo defaultUploadConfig emptyServiceState authFailEnv 1 "a.webm" {}
        true).2.2.error = some "User not authenticated" ∧
      "upload_1" ∉ (uploadVideo defaultUploadConfig emptyServiceState authFailEnv 1
        "a.webm" {} true).1.activeUploads := by
  have h := claim_C5_failure_result defaultUploadConfig emptyServiceState authFailEnv 1
    "a.webm" {}
  have hu := h.2.2.2 rfl
  exact ⟨hu.1, hu.2, h.2.1⟩

theorem chunkRecordId_injective (recordingId : String) :
    Function.Injective (chunkRecordId recordingId) :=
  fun _ _ h => chunkRecordId_inj recordingId h

theorem storeChunksFor_cons (recId : String) (y : ChunkRecord) (l : List ChunkRecord) :
    storeChunksFor recId (y :: l)
      = if y.recordingId = recId then y :: storeChunksFor recId l
        else storeChunksFor recId l := by
  by_cases h : y.recordingId = recId <;> simp [storeChunksFor, List.filter_cons, h]

theorem mem_storeChunksFor (recId : String) (store : List ChunkRecord)
    (r : ChunkRecord) :
    r ∈ storeChunksFor recId store ↔ r ∈ store ∧ r.recordingId = recId := by
  simp [storeChunksFor, List.mem_filter]

theorem idbPut_mem (store : List ChunkRecord) (r x : ChunkRecord)
    (h : x ∈ idbPut store r) : x ∈ store ∨ x = r := by
  unfold idbPut at h
  split at h
  · rw [List.mem_map] at h
    obtain ⟨y, hy, hxy⟩ := h
    by_cases hid : y.id = r.id
    · right; rw [← hxy]; simp [hid]
    · left; rw [← hxy]; simp [hid]; exact hy
  · rw [List.mem_append] at h
    rcases h with h | h
    · exact Or.inl h
    · right; simpa using h

theorem idbPut_ids (store : List ChunkRecord) (r : ChunkRecord) :
    (store.any (fun x => decide (x.id = r.id)) = true ∧
      (idbPut store r).map ChunkRecord.id = store.map ChunkRecord.id) ∨
    (store.any (fun x => decide (x.id = r.id)) = false ∧
      (idbPut store r).map ChunkRecord.id = store.map ChunkRecord.id ++ [r.id] ∧
      r.id ∉ store.map ChunkRecord.id) := by
  by_cases hany : store.any (fun x => decide (x.id = r.id)) = true
  · left
    refine ⟨hany, ?_⟩
    unfold idbPut
    rw [if_pos hany, List.map_map]
    apply List.map_congr_left
    intro x _
    by_cases hid : x.id = r.id <;> simp [hid]
  · right
    have hany2 : store.any (fun x => decide (x.id = r.id)) = false := by
      simpa using hany
    refine ⟨hany2, ?_, ?_⟩
    · unfold idbPut
      rw [if_neg (by simp [hany2]), List.map_append]
      rfl
    · intro hmem
      rw [List.mem_map] at hmem
      obtain ⟨y, hy, hxy⟩ := hmem
      rw [List.any_eq_false] at hany2
      exact absurd (by simpa using hxy) (by simpa using hany2 y hy)

theorem idbPut_ids_nodup (store : List ChunkRecord) (r : ChunkRecord)
    (h : (store.map ChunkRecord.id).Nodup) :
    ((idbPut store r).map ChunkRecord.id).Nodup := by
  rcases idbPut_ids store r with ⟨_, heq⟩ | ⟨_, heq, hfresh⟩
  · rw [heq]; exact h
  · rw [heq, List.nodup_append]
    refine ⟨h, List.nodup_singleton _, ?_⟩
    intro a ha hb
    rw [List.mem_singleton] at hb
    exact hfresh (hb ▸ ha)

theorem storeFor_map_subst (recId : String) (r : ChunkRecord)
    (hrec : r.recordingId = recId) :
    ∀ store : List ChunkRecord, (store.map ChunkRecord.id).Nodup →
      r.id ∉ (storeChunksFor recId store).map ChunkRecord.id →
      store.any (fun x => decide (x.id = r.id)) = true →
      (storeChunksFor recId
          (store.map (fun x => if x.id = r.id then r else x))).Perm
        (storeChunksFor recId store ++ [r]) := by
  intro store
  induction store with
  | nil => intro _ _ hany; simp at hany
  | cons x rest ih =>
    intro hnd hfresh hany
    rw [List.map_cons, List.nodup_cons] at hnd
    by_cases hx : x.id = r.id
    · have hrest : rest.map (fun y => if y.id = r.id then r else y) = rest := by
        have hid : ∀ y ∈ rest, (if y.id = r.id then r else y) = y := by
          intro y hy
          have hyne : y.id ≠ r.id := by
            intro hcon
            exact hnd.1 (by rw [hx, ← hcon]; exact List.mem_map_of_mem _ hy)
          simp [hyne]
        rw [List.map_congr_left hid]
        simp
      have hxrec : x.recordingId ≠ recId := by
        intro hcon
        apply hfresh
        rw [storeChunksFor_cons, if_pos hcon, List.map_cons, ← hx]
        exact List.mem_cons_self _ _
      rw [List.map_cons, if_pos hx, hrest, storeChunksFor_cons, if_pos hrec,
        storeChunksFor_cons, if_neg hxrec]
      exact (List.perm_append_singleton r _).symm
    · have hany2 : rest.any (fun y => decide (y.id = r.id)) = true := by
        rcases List.any_eq_true.mp hany with ⟨y, hy, hyid⟩
        have hy2 : y.id = r.id := of_decide_eq_true hyid
        rcases List.mem_cons.mp hy with hyx | hyr
        · exact absurd (hyx ▸ hy2) hx
        · exact List.any_eq_true.mpr ⟨y, hyr, hyid⟩
      have hfresh2 : r.id ∉ (storeChunksFor recId rest).map ChunkRecord.id := by
        intro hcon
        apply hfresh
        rw [storeChunksFor_cons]
        by_cases hxr : x.recordingId = recId
        · rw [if_pos hxr, List.map_cons]
          exact List.mem_cons_of_mem _ hcon
        · rw [if_neg hxr]
          exact hcon
      have hperm := ih hnd.2 hfresh2 hany2
      rw [List.map_cons, if_neg hx, storeChunksFor_cons, storeChunksFor_cons]
      by_cases hxr : x.recordingId = recId
      · rw [if_pos hxr, if_pos hxr,
          show (x :: storeChunksFor recId rest) ++ [r]
              = x :: (storeChunksFor recId rest ++ [r]) from by simp]
        exact hperm.cons x
      · rw [if_neg hxr, if_neg hxr]
        exact hperm

theorem idbPut_spec (store : List ChunkRecord) (r : ChunkRecord) (recId : String)
    (hnd : (store.map ChunkRecord.id).Nodup)
    (hrec : r.recordingId = recId)
    (hwfr : r.id = chunkRecordId recId r.timestamp)
    (hown : ∀ x ∈ storeChunksFor recId store, x.id = chunkRecordId recId x.timestamp)
    (hfresh : r.id ∉ (storeChunksFor recId store).map ChunkRecord.id) :
    ((idbPut store r).map ChunkRecord.id).Nodup ∧
      (∀ x ∈ storeChunksFor recId (idbPut store r),
        x.id = chunkRecordId recId x.timestamp) ∧
      (storeChunksFor recId (idbPut store r)).Perm
        (storeChunksFor recId store ++ [r]) := by
  refine ⟨idbPut_ids_nodup store r hnd, ?_, ?_⟩
  · intro x hx
    have hx2 := (mem_storeChunksFor recId _ x).mp hx
    rcases idbPut_mem store r x hx2.1 with hmem | hmem
    · exact hown x ((mem_storeChunksFor recId store x).mpr ⟨hmem, hx2.2⟩)
    · rw [hmem]; exact hwfr
  · by_cases hany : store.any (fun x => decide (x.id = r.id)) = true
    · unfold idbPut
      rw [if_pos hany]
      exact storeFor_map_subst recId r hrec store hnd hfresh hany
    · unfold idbPut
      rw [if_neg hany]
      rw [show storeChunksFor recId (store ++ [r])
          = storeChunksFor recId store ++ storeChunksFor recId [r] from
          List.filter_append _ _]
      rw [show storeChunksFor recId [r] = [r] from by
        simp [storeChunksFor, List.filter_cons, hrec]]

theorem idbPutAll_spec (recId : String) :
    ∀ (recs : List ChunkRecord) (store : List ChunkRecord),
      (store.map ChunkRecord.id).Nodup →
      (∀ x ∈ storeChunksFor recId store, x.id = chunkRecordId recId x.timestamp) →
      (∀ r ∈ recs, r.recordingId = recId ∧
        r.id = chunkRecordId recId r.timestamp) →
      (recs.map ChunkRecord.id).Nodup →
      (∀ i ∈ recs.map ChunkRecord.id,
        i ∉ (storeChunksFor recId store).map ChunkRecord.id) →
      ((idbPutAll store recs).map ChunkRecord.id).Nodup ∧
        (∀ x ∈ storeChunksFor recId (idbPutAll store recs),
          x.id = chunkRecordId recId x.timestamp) ∧
        (storeChunksFor recId (idbPutAll store recs)).Perm
          (storeChunksFor recId store ++ recs) := by
  intro recs
  induction recs with
  | nil =>
    intro store hnd hown _ _ _
    exact ⟨hnd, hown, by simp [idbPutAll]⟩
  | cons r rest ih =>
    intro store hnd hown hprops hrnd hdisj
    have hput := idbPut_spec store r recId hnd (hprops r (by simp)).1
      (hprops r (by simp)).2 hown
      (hdisj r.id (by simp))
    have hrnd2 : (rest.map ChunkRecord.id).Nodup := by
      rw [List.map_cons, List.nodup_cons] at hrnd
      exact hrnd.2
    have hdisj2 : ∀ i ∈ rest.map ChunkRecord.id,
        i ∉ (storeChunksFor recId (idbPut store r)).map ChunkRecord.id := by
      intro i hi hcon
      have hm := (hput.2.2.map ChunkRecord.id).mem_iff.mp hcon
      rw [List.map_append] at hm
      rcases List.mem_append.mp hm with hm | hm
      · exact hdisj i (List.mem_cons_of_mem _ hi) hm
      · rw [List.map_cons, List.nodup_cons] at hrnd
        rw [List.map_singleton, List.mem_singleton] at hm
        exact hrnd.1 (hm ▸ hi)
    have hall := ih (idbPut store r) hput.1 hput.2.1
      (fun x hx => hprops x (List.mem_cons_of_mem _ hx)) hrnd2 hdisj2
    refine ⟨hall.1, hall.2.1, ?_⟩
    have hstep : idbPutAll store (r :: rest) = idbPutAll (idbPut store r) rest := rfl
    rw [hstep]
    refine hall.2.2.trans ?_
    refine (hput.2.2.append_right rest).trans ?_
    rw [List.append_assoc]
    exact List.Perm.refl _

theorem flush_store_eq (s : BufferState) (h : s.chunks ≠ []) :
    flushToIndexedDB s
      = { s with
          store := idbPutAll s.store (s.chunks.map (VideoChunk.toRecord s.recordingId))
          chunks := [] } := by
  have heq : idbPutAll s.store (s.chunks.map (VideoChunk.toRecord s.recordingId))
      = s.chunks.foldl (fun st c => idbPut st (c.toRecord s.recordingId)) s.store := by
    unfold idbPutAll
    rw [List.foldl_map]
  rw [heq]
  unfold flushToIndexedDB
  rw [if_neg h]

theorem flush_spec (s : BufferState)
    (hwf : storeWfFor s.recordingId s.store)
    (hnd : (traceTs s).Nodup) :
    storeWfFor s.recordingId (flushToIndexedDB s).store ∧
      (flushToIndexedDB s).recordingId = s.recordingId ∧
      (traceTs (flushToIndexedDB s)).Perm (traceTs s) := by
  by_cases hc : s.chunks = []
  · unfold flushToIndexedDB
    rw [if_pos hc]
    exact ⟨hwf, rfl, List.Perm.refl _⟩
  · rw [flush_store_eq s hc]
    have hprops : ∀ r ∈ s.chunks.map (VideoChunk.toRecord s.recordingId),
        r.recordingId = s.recordingId ∧
          r.id = chunkRecordId s.recordingId r.timestamp := by
      intro r hr
      rw [List.mem_map] at hr
      obtain ⟨c, _, hcr⟩ := hr
      rw [← hcr]
      exact ⟨rfl, rfl⟩
    have hids : (s.chunks.map (VideoChunk.toRecord s.recordingId)).map ChunkRecord.id
        = (s.chunks.map VideoChunk.timestamp).map (chunkRecordId s.recordingId) := by
      rw [List.map_map, List.map_map]
      rfl
    have hndsplit := List.nodup_append.mp (show ((storeChunksFor s.recordingId
        s.store).map ChunkRecord.timestamp
          ++ s.chunks.map VideoChunk.timestamp).Nodup from hnd)
    have hrnd : ((s.chunks.map (VideoChunk.toRecord s.recordingId)).map
        ChunkRecord.id).Nodup := by
      rw [hids]
      exact List.Nodup.map (chunkRecordId_injective s.recordingId) hndsplit.2.1
    have hdisj : ∀ i ∈ (s.chunks.map (VideoChunk.toRecord s.recordingId)).map
        ChunkRecord.id,
        i ∉ (storeChunksFor s.recordingId s.store).map ChunkRecord.id := by
      intro i hi hcon
      rw [hids, List.mem_map] at hi
      obtain ⟨t, ht, hti⟩ := hi
      rw [List.mem_map] at hcon
      obtain ⟨x, hx, hxi⟩ := hcon
      have hxid := hwf.2 x hx
      have hts : x.timestamp = t :=
        chunkRecordId_inj s.recordingId (by rw [← hxid, hxi, ← hti])
      exact hndsplit.2.2 (List.mem_map_of_mem _ hx) (hts ▸ ht)
    have hall := idbPutAll_spec s.recordingId
      (s.chunks.map (VideoChunk.toRecord s.recordingId)) s.store
      hwf.1 hwf.2 hprops hrnd hdisj
    refine ⟨⟨hall.1, hall.2.1⟩, rfl, ?_⟩
    show ((storeChunksFor s.recordingId (idbPutAll s.store
        (s.chunks.map (VideoChunk.toRecord s.recordingId)))).map
          ChunkRecord.timestamp ++ ([] : List VideoChunk).map
            VideoChunk.timestamp).Perm (traceTs s)
    rw [List.map_nil, List.append_nil]
    refine (hall.2.2.map ChunkRecord.timestamp).trans ?_
    rw [List.map_append, List.map_map]
    exact List.Perm.refl _

theorem addChunk_spec (now : Nat) (blob : BlobData) (s : BufferState)
    (hwf : storeWfFor s.recordingId s.store)
    (hnd : (traceTs s).Nodup)
    (hlt : ∀ t ∈ traceTs s, t < now) :
    storeWfFor s.recordingId (addChunk now blob s).store ∧
      (addChunk now blob s).recordingId = s.recordingId ∧
      (traceTs (addChunk now blob s)).Perm (traceTs s ++ [now]) := by
  set s1 : BufferState :=
    { s with chunks := s.chunks ++
        [{ blob := blob, timestamp := now, size := blob.length
         , duration := ((now : ℚ) - (s.startTime : ℚ)) / 1000 }] } with hs1
  have htr1 : traceTs s1 = traceTs s ++ [now] := by
    rw [hs1]
    unfold traceTs
    simp [List.map_append, List.append_assoc]
  have hnd1 : (traceTs s1).Nodup := by
    rw [htr1, List.nodup_append]
    refine ⟨hnd, List.nodup_singleton _, ?_⟩
    intro t ht hmem
    rw [List.mem_singleton] at hmem
    exact absurd (hmem ▸ hlt t ht) (lt_irrefl now)
  have hwf1 : storeWfFor s1.recordingId s1.store := hwf
  have hform : addChunk now blob s
      = if s1.config.autoFlush && nearLimitCheck now s1 then flushToIndexedDB s1
        else s1 := rfl
  rw [hform]
  by_cases hb : (s1.config.autoFlush && nearLimitCheck now s1) = true
  · rw [if_pos hb]
    have hf := flush_spec s1 hwf1 hnd1
    refine ⟨hf.1, hf.2.1, ?_⟩
    refine hf.2.2.trans ?_
    rw [htr1]
  · rw [if_neg hb]
    refine ⟨hwf1, rfl, ?_⟩
    rw [htr1]

theorem runOps_spec : ∀ (ops : List BufOp) (s : BufferState),
    storeWfFor s.recordingId s.store →
    (traceTs s).Nodup →
    (∀ t ∈ traceTs s, ∀ t2 ∈ addTimes ops, t < t2) →
    List.Pairwise (· < ·) (addTimes ops) →
    storeWfFor (runOps s ops).recordingId (runOps s ops).store ∧
      (runOps s ops).recordingId = s.recordingId ∧
      (traceTs (runOps s ops)).Perm (traceTs s ++ addTimes ops) := by
  intro ops
  induction ops with
  | nil =>
    intro s hwf hnd _ _
    refine ⟨hwf, rfl, ?_⟩
    rw [show addTimes [] = [] from rfl, List.append_nil]
    exact List.Perm.refl _
  | cons op rest ih =>
    intro s hwf hnd hlt hpw
    cases op with
    | flush =>
      have hf := flush_spec s hwf hnd
      have h2 := ih (flushToIndexedDB s)
        (by rw [hf.2.1]; exact hf.1)
        ((hf.2.2.nodup_iff).mpr hnd)
        (fun t ht t2 ht2 => hlt t (hf.2.2.mem_iff.mp ht) t2 ht2)
        hpw
      refine ⟨h2.1, h2.2.1.trans hf.2.1, ?_⟩
      exact h2.2.2.trans (hf.2.2.append_right _)
    | add now blob =>
      have hpwc := List.pairwise_cons.mp
        (show List.Pairwise (· < ·) (now :: addTimes rest) from hpw)
      have hltnow : ∀ t ∈ traceTs s, t < now :=
        fun t ht => hlt t ht now (List.mem_cons_self _ _)
      have ha := addChunk_spec now blob s hwf hnd hltnow
      have hndadd : (traceTs s ++ [now]).Nodup := by
        rw [List.nodup_append]
        refine ⟨hnd, List.nodup_singleton _, ?_⟩
        intro t ht hmem
        rw [List.mem_singleton] at hmem
        exact absurd (hmem ▸ hltnow t ht) (lt_irrefl now)
      have h2 := ih (addChunk now blob s)
        (by rw [ha.2.1]; exact ha.1)
        ((ha.2.2.nodup_iff).mpr hndadd)
        (by
          intro t ht t2 ht2
          rcases List.mem_append.mp (ha.2.2.mem_iff.mp ht) with ht3 | ht3
          · exact hlt t ht3 t2 (List.mem_cons_of_mem _ ht2)
          · rw [List.mem_singleton] at ht3
            exact ht3 ▸ hpwc.1 t2 ht2)
        hpwc.2
      refine ⟨h2.1, h2.2.1.trans ha.2.1, ?_⟩
      refine h2.2.2.trans ?_
      refine (ha.2.2.append_right (addTimes rest)).trans ?_
      rw [List.append_assoc]
      exact List.Perm.refl _

theorem getAllChunks_length (s : BufferState) :
    (getAllChunks s).length
      = (storeChunksFor s.recordingId s.store).length + s.chunks.length := by
  unfold getAllChunks
  rw [(List.mergeSort_perm _ _).length_eq]
  simp

theorem getAllChunks_ts_perm (s : BufferState) :
    ((getAllChunks s).map VideoChunk.timestamp).Perm (traceTs s) := by
  unfold getAllChunks
  refine ((List.mergeSort_perm _ _).map VideoChunk.timestamp).trans ?_
  rw [List.map_append, List.map_map]
  exact List.Perm.refl _

theorem getAllChunks_sorted (s : BufferState) :
    List.Pairwise (fun a b => a.timestamp ≤ b.timestamp) (getAllChunks s) := by
  have h := @List.sorted_mergeSort VideoChunk
    (fun a b : VideoChunk => decide (a.timestamp ≤ b.timestamp))
    (by
      intro a b c hab hbc
      rw [decide_eq_true_eq] at hab hbc ⊢
      omega)
    (by
      intro a b
      rw [Bool.or_eq_true, decide_eq_true_eq, decide_eq_true_eq]
      omega)
    ((storeChunksFor s.recordingId s.store).map
        (fun data =>
          ({ blob := data.blob
           , timestamp := data.timestamp
           , size := data.size
           , duration := data.duration } : VideoChunk)) ++ s.chunks)
  exact h.imp (fun hab => of_decide_eq_true hab)

/-- C1 (amended): provided the persisted store starts with no records for
this recording, the in-memory list starts empty (as `initialize()` leaves
it), and the `addChunk` timestamps are strictly increasing — in particular
no two `addChunk` calls land in the same millisecond — then for every
interleaving of `addChunk` and `flushToIndexedDB` calls, `getAllChunks()`
returns the chunks sorted by timestamp ascending with no duplicates, and
its total count (in-memory plus persisted) equals the number of `addChunk`
calls.  Without the distinct-timestamp proviso the count claim fails: the
persisted key `recordingId_timestamp` collapses same-millisecond chunks
(see the counterexample and C10). -/
theorem claim_C1_getAllChunks (s : BufferState) (ops : List BufOp)
    (hids : (s.store.map ChunkRecord.id).Nodup)
    (hfresh : storeChunksFor s.recordingId s.store = [])
    (hchunks : s.chunks = [])
    (hinc : List.Chain' (· < ·) (addTimes ops)) :
    (getAllChunks (runOps s ops)).map VideoChunk.timestamp = addTimes ops ∧
      (getAllChunks (runOps s ops)).length = numAddCalls ops ∧
      List.Pairwise (fun a b => a.timestamp ≤ b.timestamp)
        (getAllChunks (runOps s ops)) ∧
      ((getAllChunks (runOps s ops)).map VideoChunk.timestamp).Nodup := by
  have htr0 : traceTs s = [] := by
    simp [traceTs, hfresh, hchunks]
  have hwf : storeWfFor s.recordingId s.store := by
    refine ⟨hids, ?_⟩
    rw [hfresh]
    intro r hr
    exact absurd hr (List.not_mem_nil r)
  have hpw : List.Pairwise (· < ·) (addTimes ops) := List.chain'_iff_pairwise.mp hinc
  have hrun := runOps_spec ops s hwf (htr0 ▸ List.nodup_nil)
    (by
      rw [htr0]
      intro t ht
      exact absurd ht (List.not_mem_nil t))
    hpw
  have htrace : (traceTs (runOps s ops)).Perm (addTimes ops) := by
    have h := hrun.2.2
    rw [htr0] at h
    simpa using h
  have hsorted := getAllChunks_sorted (runOps s ops)
  have hperm : ((getAllChunks (runOps s ops)).map VideoChunk.timestamp).Perm
      (addTimes ops) :=
    (getAllChunks_ts_perm (runOps s ops)).trans htrace
  have hsorted2 : List.Sorted (· ≤ ·)
      ((getAllChunks (runOps s ops)).map VideoChunk.timestamp) :=
    List.pairwise_map.mpr hsorted
  have hsorted3 : List.Sorted (· ≤ ·) (addTimes ops) :=
    hpw.imp (fun h => Nat.le_of_lt h)
  have heq : (getAllChunks (runOps s ops)).map VideoChunk.timestamp = addTimes ops :=
    List.eq_of_perm_of_sorted hperm hsorted2 hsorted3
  refine ⟨heq, ?_, hsorted, ?_⟩
  · rw [numAddCalls, ← heq, List.length_map]
  · rw [heq]
    exact hpw.imp (fun h => Nat.ne_of_lt h)

theorem claim_C1_getAllChunks_witness :
    (getAllChunks (runOps cexBuf increasingOps)).map VideoChunk.timestamp
        = addTimes increasingOps ∧
      (getAllChunks (runOps cexBuf increasingOps)).length
        = numAddCalls increasingOps := by
  have h := claim_C1_getAllChunks cexBuf increasingOps (by simp [cexBuf]) rfl rfl
    (by
      show List.Chain' (· < ·) [5, 7, 9]
      norm_num [List.chain'_cons])
  exact ⟨h.1, h.2.1⟩

/-- C1 counterexample: two `addChunk` calls inside the same millisecond
(timestamp 5) followed by a flush leave only one chunk retrievable —
`put` wrote both under the key `rec_5` — so the total count is 1 while the
number of `addChunk` calls since initialization is 2. -/
theorem claim_C1_counterexample :
    numAddCalls collidingOps = 2 ∧
      (getAllChunks (runOps cexBuf collidingOps)).length = 1 ∧
      (getAllChunks (runOps cexBuf collidingOps)).length ≠ numAddCalls collidingOps := by
  refine ⟨rfl, ?_, ?_⟩
  · rw [getAllChunks_length]
    decide
  · rw [getAllChunks_length]
    decide

theorem idbPutAll_mem : ∀ (recs store : List ChunkRecord) (x : ChunkRecord),
    x ∈ idbPutAll store recs → x ∈ store ∨ x ∈ recs := by
  intro recs
  induction recs with
  | nil => intro store x hx; exact Or.inl hx
  | cons r rest ih =>
    intro store x hx
    rcases ih (idbPut store r) x hx with h | h
    · rcases idbPut_mem store r x h with h2 | h2
      · exact Or.inl h2
      · exact Or.inr (h2 ▸ List.mem_cons_self _ _)
    · exact Or.inr (List.mem_cons_of_mem _ h)

theorem idbPutAll_ids_nodup : ∀ (recs store : List ChunkRecord),
    (store.map ChunkRecord.id).Nodup →
    ((idbPutAll store recs).map ChunkRecord.id).Nodup := by
  intro recs
  induction recs with
  | nil => intro store h; exact h
  | cons r rest ih => intro store h; exact ih (idbPut store r) (idbPut_ids_nodup store r h)

theorem nodup_subset_dedup_length {α : Type} [DecidableEq α] (l1 l2 : List α)
    (h1 : l1.Nodup) (hsub : ∀ x ∈ l1, x ∈ l2) : l1.length ≤ l2.dedup.length := by
  have hfin : l1.toFinset ⊆ l2.toFinset := by
    intro a ha
    rw [List.mem_toFinset] at ha ⊢
    exact hsub a ha
  have hc1 : l1.toFinset.card = l1.length := by
    rw [List.card_toFinset, List.dedup_eq_self.mpr h1]
  have hc2 : l2.toFinset.card = l2.dedup.length := List.card_toFinset l2
  rw [← hc1, ← hc2]
  exact Finset.card_le_card hfin

theorem dedup_length_lt {α : Type} [DecidableEq α] (l : List α) (h : ¬ l.Nodup) :
    l.dedup.length < l.length := by
  have hsub := List.dedup_sublist l
  have hle := hsub.length_le
  rcases Nat.lt_or_ge l.dedup.length l.length with hlt | hge
  · exact hlt
  · exfalso
    have heq : l.dedup = l := hsub.eq_of_length (by omega)
    exact h (heq ▸ List.nodup_dedup l)

theorem dedup_append_length {α : Type} [DecidableEq α] (l1 l2 : List α) :
    (l1 ++ l2).dedup.length ≤ l1.dedup.length + l2.dedup.length := by
  have h1 : (l1 ++ l2).dedup.length = (l1 ++ l2).toFinset.card :=
    (List.card_toFinset _).symm
  rw [h1, List.toFinset_append]
  calc (l1.toFinset ∪ l2.toFinset).card
      ≤ l1.toFinset.card + l2.toFinset.card := Finset.card_union_le _ _
    _ = l1.dedup.length + l2.dedup.length := by
        rw [List.card_toFinset, List.card_toFinset]

theorem wf_at_most_one (recId : String) (store : List ChunkRecord)
    (hnd : (store.map ChunkRecord.id).Nodup)
    (hown : ∀ x ∈ storeChunksFor recId store,
      x.id = chunkRecordId recId x.timestamp)
    (t : Nat) :
    ((storeChunksFor recId store).filter
      (fun r => decide (r.timestamp = t))).length ≤ 1 := by
  have hsub : ((storeChunksFor recId store).filter
      (fun r => decide (r.timestamp = t))).Sublist store :=
    ((List.filter_sublist _).trans (List.filter_sublist _))
  have hndf : (((storeChunksFor recId store).filter
      (fun r => decide (r.timestamp = t))).map ChunkRecord.id).Nodup :=
    (hsub.map ChunkRecord.id).nodup hnd
  have hallid : ∀ x ∈ (storeChunksFor recId store).filter
      (fun r => decide (r.timestamp = t)), x.id = chunkRecordId recId t := by
    intro x hx
    rw [List.mem_filter] at hx
    have ht := of_decide_eq_true hx.2
    rw [hown x hx.1, ht]
  cases hfl : (storeChunksFor recId store).filter
      (fun r => decide (r.timestamp = t)) with
  | nil => simp
  | cons a l2 =>
    cases l2 with
    | nil => simp
    | cons b l3 =>
      exfalso
      rw [hfl] at hndf hallid
      rw [List.map_cons, List.map_cons, List.nodup_cons] at hndf
      apply hndf.1
      rw [hallid a (by simp), hallid b (by simp [List.mem_cons])]
      exact List.mem_cons_self _ _

theorem flush_count_lt (s : BufferState)
    (hwf : storeWfFor s.recordingId s.store)
    (hdup : ¬ (s.chunks.map VideoChunk.timestamp).Nodup) :
    totalChunkCount (flushToIndexedDB s) < totalChunkCount s := by
  have hc : s.chunks ≠ [] := by
    intro h
    exact hdup (by rw [h]; exact List.nodup_nil)
  rw [flush_store_eq s hc]
  set recs := s.chunks.map (VideoChunk.toRecord s.recordingId) with hrecs
  have hpostids : ∀ i ∈ (storeChunksFor s.recordingId
      (idbPutAll s.store recs)).map ChunkRecord.id,
      i ∈ (storeChunksFor s.recordingId s.store).map ChunkRecord.id
        ++ recs.map ChunkRecord.id := by
    intro i hi
    rw [List.mem_map] at hi
    obtain ⟨x, hx, hxi⟩ := hi
    have hx2 := (mem_storeChunksFor _ _ x).mp hx
    rcases idbPutAll_mem recs s.store x hx2.1 with hm | hm
    · rw [List.mem_append]
      exact Or.inl (hxi ▸ List.mem_map_of_mem ChunkRecord.id
        ((mem_storeChunksFor _ _ x).mpr ⟨hm, hx2.2⟩))
    · rw [List.mem_append]
      exact Or.inr (hxi ▸ List.mem_map_of_mem ChunkRecord.id hm)
  have hpostnd : ((storeChunksFor s.recordingId
      (idbPutAll s.store recs)).map ChunkRecord.id).Nodup := by
    have hnd2 := idbPutAll_ids_nodup recs s.store hwf.1
    exact ((List.filter_sublist _).map ChunkRecord.id).nodup hnd2
  have hbound : (storeChunksFor s.recordingId (idbPutAll s.store recs)).length
      ≤ ((storeChunksFor s.recordingId s.store).map ChunkRecord.id
          ++ recs.map ChunkRecord.id).dedup.length := by
    have := nodup_subset_dedup_length _ _ hpostnd hpostids
    rwa [List.length_map] at this
  have hprend : ((storeChunksFor s.recordingId s.store).map ChunkRecord.id).Nodup :=
    ((List.filter_sublist _).map ChunkRecord.id).nodup hwf.1
  have hrecsdup : ¬ (recs.map ChunkRecord.id).Nodup := by
    intro hcon
    apply hdup
    rw [hrecs, List.map_map] at hcon
    have : s.chunks.map (chunkRecordId s.recordingId ∘ VideoChunk.timestamp)
        = (s.chunks.map VideoChunk.timestamp).map (chunkRecordId s.recordingId) := by
      rw [List.map_map]
    rw [show (ChunkRecord.id ∘ VideoChunk.toRecord s.recordingId)
        = (chunkRecordId s.recordingId ∘ VideoChunk.timestamp) from rfl, this] at hcon
    exact List.Nodup.of_map _ hcon
  have hlen : recs.length = s.chunks.length := by rw [hrecs, List.length_map]
  have hstep : ((storeChunksFor s.recordingId s.store).map ChunkRecord.id
      ++ recs.map ChunkRecord.id).dedup.length
      < (storeChunksFor s.recordingId s.store).length + s.chunks.length := by
    calc ((storeChunksFor s.recordingId s.store).map ChunkRecord.id
          ++ recs.map ChunkRecord.id).dedup.length
        ≤ ((storeChunksFor s.recordingId s.store).map ChunkRecord.id).dedup.length
            + (recs.map ChunkRecord.id).dedup.length := dedup_append_length _ _
      _ < (storeChunksFor s.recordingId s.store).length + s.chunks.length := by
          have h1 : ((storeChunksFor s.recordingId s.store).map
              ChunkRecord.id).dedup.length
              = (storeChunksFor s.recordingId s.store).length := by
            rw [List.dedup_eq_self.mpr hprend, List.length_map]
          have h2 : (recs.map ChunkRecord.id).dedup.length < s.chunks.length := by
            have := dedup_length_lt _ hrecsdup
            rw [List.length_map, hlen] at this
            exact this
          omega
  show ([] : List VideoChunk).length
      + (storeChunksFor s.recordingId (idbPutAll s.store recs)).length
      < totalChunkCount s
  unfold totalChunkCount
  simp only [List.length_nil, Nat.zero_add]
  omega

/-- C10: a batch of chunks flushed together is written with `put` under the
keys `` `${recordingId}_${timestamp}` ``, so two chunks with equal
timestamps are written under the same key and at most one survives in
persistent storage — after any flush, at most one persisted record exists
per (recording, timestamp) pair — and consequently a flush preserves the
combined chunk count only when the batch's timestamps are pairwise
distinct. -/
theorem claim_C10_flush_put_semantics (s : BufferState)
    (hwf : storeWfFor s.recordingId s.store) :
    (∀ c1 ∈ s.chunks, ∀ c2 ∈ s.chunks, c1.timestamp = c2.timestamp →
      (VideoChunk.toRecord s.recordingId c1).id
        = (VideoChunk.toRecord s.recordingId c2).id) ∧
      (¬ (s.chunks.map VideoChunk.timestamp).Nodup →
        totalChunkCount (flushToIndexedDB s) < totalChunkCount s) ∧
      (totalChunkCount (flushToIndexedDB s) = totalChunkCount s →
        (s.chunks.map VideoChunk.timestamp).Nodup) ∧
      (∀ t : Nat,
        ((storeChunksFor s.recordingId (flushToIndexedDB s).store).filter
          (fun r => decide (r.timestamp = t))).length ≤ 1) := by
  refine ⟨?_, fun hdup => flush_count_lt s hwf hdup, ?_, ?_⟩
  · intro c1 _ c2 _ hts
    show chunkRecordId s.recordingId c1.timestamp
        = chunkRecordId s.recordingId c2.timestamp
    rw [hts]
  · intro heq
    by_contra hdup
    exact absurd heq (Nat.ne_of_lt (flush_count_lt s hwf hdup))
  · intro t
    by_cases hc : s.chunks = []
    · have hfl : flushToIndexedDB s = s := by
        unfold flushToIndexedDB
        rw [if_pos hc]
      rw [hfl]
      exact wf_at_most_one s.recordingId s.store hwf.1 hwf.2 t
    · rw [flush_store_eq s hc]
      apply wf_at_most_one
      · exact idbPutAll_ids_nodup _ s.store hwf.1
      · intro x hx
        have hx2 := (mem_storeChunksFor _ _ x).mp hx
        rcases idbPutAll_mem _ s.store x hx2.1 with hm | hm
        · exact hwf.2 x ((mem_storeChunksFor _ _ x).mpr ⟨hm, hx2.2⟩)
        · rw [List.mem_map] at hm
          obtain ⟨c, _, hcr⟩ := hm
          rw [← hcr]
          rfl

theorem claim_C10_flush_put_semantics_witness :
    ¬ ((c10State.chunks.map VideoChunk.timestamp).Nodup) ∧
      totalChunkCount (flushToIndexedDB c10State) < totalChunkCount c10State := by
  have hwf : storeWfFor c10State.recordingId c10State.store := by
    constructor
    · simp [c10State]
    · intro r hr
      simp [c10State, storeChunksFor] at hr
  have h := claim_C10_flush_put_semantics c10State hwf
  exact ⟨by decide, h.2.1 (by decide)⟩
